import Mathlib

/-!
Verification of the nanobot concurrent runtime core against its
natural-language specification.  The definitions below are shallow
embeddings of the Python sources (`nanobot/bus/queue.py`,
`nanobot/agent/loop.py`, `nanobot/providers/litellm_provider.py`):
pure functions become Lean functions, the stateful message bus becomes
explicit state passing on a `BusState` record, Python `dict`s become
insertion-ordered association lists, and fallible external effects
(LLM calls, JSON decoding, file writes) become explicitly quantified
outcome parameters.
-/

namespace Nanobot

/-! ## Data model for bus events

Modelled from the spec: `nanobot/bus/events.py` is not part of the
sources at hand; the spec's section 3 pins `InboundMessage` down as
channel, sender_id, chat_id, content, timestamp, media (ordered file
paths) and free-form metadata, with derived
`session_key = channel + ":" + chat_id`.  Metadata values are free-form
JSON-like data (the bus stores strings, numbers, lists and nested
dicts in them), modelled by the inductive `MetaVal`. -/

/-- JSON-like metadata value as stored in a message's metadata dict. -/
inductive MetaVal : Type where
  | str (v : String)
  | num (v : Int)
  | arr (v : List MetaVal)
  | obj (v : List (String × MetaVal))

/-- Insertion-ordered dict of metadata entries. -/
abbrev Metadata := List (String × MetaVal)

/-- A Python `datetime | str` timestamp value. -/
inductive Timestamp : Type where
  | dt (iso : String)
  | txt (s : String)
  deriving DecidableEq

/-- `MessageBus._timestamp_to_text`: `datetime` values serialize via
`isoformat()`, everything else via `str`. -/
def timestampToText : Timestamp → String
  | .dt iso => iso
  | .txt s => s

/-- Modelled from the spec: the `InboundMessage` bus event
(section 3 of the spec; `nanobot/bus/events.py` is not among the
sources at hand). -/
structure InboundMessage where
  channel : String
  sender_id : String
  chat_id : String
  content : String
  timestamp : Timestamp
  media : List String
  metadata : Metadata

/-- Derived attribute `session_key = channel + ":" + chat_id`. -/
def InboundMessage.sessionKey (m : InboundMessage) : String :=
  m.channel ++ ":" ++ m.chat_id

/-- Python dict assignment `d[k] = v`: update in place when the key is
present (dict keys are unique, so replacing the first occurrence is
in-place update), otherwise append at the end (insertion order). -/
def dictSet : Metadata → String → MetaVal → Metadata
  | [], k, v => [(k, v)]
  | p :: rest, k, v => if p.1 = k then (k, v) :: rest else p :: dictSet rest k v

/-- Python dict lookup `d.get(k)`. -/
def dictGet : Metadata → String → Option MetaVal
  | [], _ => none
  | p :: rest, k => if p.1 = k then some p.2 else dictGet rest k

/-- One entry of the `collected_messages` list built by
`MessageBus._merge_buffered_messages`. -/
def collectedEntry (m : InboundMessage) : MetaVal :=
  .obj
    [ ("sender_id", .str m.sender_id)
    , ("content", .str m.content)
    , ("timestamp", .str (timestampToText m.timestamp))
    , ("media", .arr (m.media.map MetaVal.str))
    , ("metadata", .obj m.metadata)
    ]

/-- `MessageBus._merge_buffered_messages` on the non-empty buffer
`first :: rest`. -/
def mergeBuffered (first : InboundMessage) (rest : List InboundMessage) : InboundMessage :=
  let msgs := first :: rest
  let mergedContent :=
    if rest.isEmpty then first.content
    else String.intercalate "\n\n"
      (msgs.map (fun m => "[" ++ m.sender_id ++ "] " ++ m.content))
  let mergedMedia := (msgs.map (fun m => m.media)).flatten
  let collected := msgs.map collectedEntry
  let md := dictSet (dictSet first.metadata "collected_messages" (.arr collected))
    "collected_count" (.num msgs.length)
  { channel := first.channel
    sender_id := first.sender_id
    chat_id := first.chat_id
    content := mergedContent
    timestamp := first.timestamp
    media := mergedMedia
    metadata := md }

/-! ## MessageBus inbound state machine -/

/-- The inbound-side state of a `MessageBus`: the FIFO inbound queue,
the `_active_inbound_session` marker and the `_inbound_collect_buffer`
dict. -/
structure BusState where
  inbound : List InboundMessage
  activeInboundSession : Option String
  collectBuffer : List (String × List InboundMessage)

/-- Lookup of a session's buffered list, defaulting to `[]`
(the view `setdefault` establishes). -/
def bufferGet : List (String × List InboundMessage) → String → List InboundMessage
  | [], _ => []
  | p :: rest, k => if p.1 = k then p.2 else bufferGet rest k

/-- `buffer = self._inbound_collect_buffer.setdefault(key, []);
buffer.append(msg)` (dict keys are unique, so updating the first
occurrence is in-place update). -/
def bufferAppend : List (String × List InboundMessage) → String → InboundMessage →
    List (String × List InboundMessage)
  | [], k, msg => [(k, [msg])]
  | p :: rest, k, msg =>
      if p.1 = k then (p.1, p.2 ++ [msg]) :: rest else p :: bufferAppend rest k msg

/-- `self._inbound_collect_buffer.pop(key, [])`: the remaining dict. -/
def bufferRemove (b : List (String × List InboundMessage)) (k : String) :
    List (String × List InboundMessage) :=
  b.filter (fun p => p.1 ≠ k)

/-- `MessageBus.publish_inbound`: buffer the message when it belongs to
the active session (Python truthiness: an empty active key is falsy),
otherwise enqueue it immediately. -/
def publishInbound (msg : InboundMessage) (st : BusState) : BusState :=
  match st.activeInboundSession with
  | some active =>
      if active ≠ "" ∧ msg.sessionKey = active then
        { st with collectBuffer := bufferAppend st.collectBuffer msg.sessionKey msg }
      else
        { st with inbound := st.inbound ++ [msg] }
  | none => { st with inbound := st.inbound ++ [msg] }

/-- `MessageBus.consume_inbound`: dequeue the head and record its
session key as the active inbound session. -/
def consumeInbound (st : BusState) : Option (InboundMessage × BusState) :=
  match st.inbound with
  | [] => none
  | m :: rest =>
      some (m, { st with inbound := rest, activeInboundSession := some m.sessionKey })

/-- `MessageBus.complete_inbound_turn`: a mismatched completion is a
no-op; a matching one drains the session's buffer, enqueues the merged
follow-up when the buffer was non-empty, and clears the marker. -/
def completeInboundTurn (msg : InboundMessage) (st : BusState) : BusState :=
  if st.activeInboundSession ≠ some msg.sessionKey then st
  else
    let buffered := bufferGet st.collectBuffer msg.sessionKey
    let rest := bufferRemove st.collectBuffer msg.sessionKey
    match buffered with
    | [] =>
        { st with collectBuffer := rest, activeInboundSession := none }
    | m1 :: ms =>
        { st with
            collectBuffer := rest
            inbound := st.inbound ++ [mergeBuffered m1 ms]
            activeInboundSession := none }

/-! ### Helper lemmas on the dict model -/

theorem dictGet_dictSet_same (m : Metadata) (k : String) (v : MetaVal) :
    dictGet (dictSet m k v) k = some v := by
  induction m with
  | nil => simp [dictGet, dictSet]
  | cons p rest ih =>
      by_cases hp : p.1 = k
      · simp [dictGet, dictSet, hp]
      · simp [dictGet, dictSet, hp, ih]

theorem dictGet_dictSet_other (m : Metadata) (k k' : String) (v : MetaVal)
    (hne : k' ≠ k) : dictGet (dictSet m k v) k' = dictGet m k' := by
  induction m with
  | nil =>
      have hk' : ¬(k = k') := fun h => hne h.symm
      simp [dictGet, dictSet, hk']
  | cons p rest ih =>
      by_cases hp : p.1 = k
      · have hk' : ¬(k = k') := fun h => hne h.symm
        have hp' : ¬(p.1 = k') := by rw [hp]; exact hk'
        simp only [dictSet, if_pos hp, dictGet, if_neg hk', if_neg hp']
      · simp only [dictSet, if_neg hp]
        by_cases hp' : p.1 = k'
        · simp only [dictGet, if_pos hp']
        · simp only [dictGet, if_neg hp', ih]

theorem bufferGet_bufferAppend_same (b : List (String × List InboundMessage))
    (k : String) (msg : InboundMessage) :
    bufferGet (bufferAppend b k msg) k = bufferGet b k ++ [msg] := by
  induction b with
  | nil => simp [bufferGet, bufferAppend]
  | cons p rest ih =>
      by_cases hp : p.1 = k
      · simp [bufferAppend, bufferGet, hp]
      · simp [bufferAppend, bufferGet, hp, ih]

/-- Claim C1: after `consume_inbound` returns a message with session key
K, every `publish_inbound` of a K-message is appended to K's buffer and
the inbound queue does not grow; a publish for a different session key
enqueues immediately; a matching `complete_inbound_turn` with a
non-empty buffer m1 :: ms enqueues exactly the one merged message,
whose content is m1's content when the buffer is a singleton and
otherwise the "[sender] content" entries joined by blank lines, whose
media is the concatenation of the buffered media lists, whose metadata
carries the collected entries and their count, and whose remaining
fields come from m1. -/
theorem bus_inbound_buffering_spec :
    (∀ (st : BusState) (K : String) (msg : InboundMessage),
        st.activeInboundSession = some K → K ≠ "" → msg.sessionKey = K →
        (publishInbound msg st).inbound = st.inbound ∧
        bufferGet (publishInbound msg st).collectBuffer K
          = bufferGet st.collectBuffer K ++ [msg])
  ∧ (∀ (st : BusState) (K : String) (msg : InboundMessage),
        st.activeInboundSession = some K → msg.sessionKey ≠ K →
        (publishInbound msg st).inbound = st.inbound ++ [msg] ∧
        (publishInbound msg st).collectBuffer = st.collectBuffer)
  ∧ (∀ (st st' : BusState) (m : InboundMessage),
        consumeInbound st = some (m, st') →
        st'.activeInboundSession = some m.sessionKey)
  ∧ (∀ (st : BusState) (K : String) (msg m1 : InboundMessage)
        (ms : List InboundMessage),
        st.activeInboundSession = some K → msg.sessionKey = K →
        bufferGet st.collectBuffer K = m1 :: ms →
        (completeInboundTurn msg st).inbound
          = st.inbound ++ [mergeBuffered m1 ms] ∧
        (completeInboundTurn msg st).activeInboundSession = none)
  ∧ (∀ (m1 : InboundMessage) (ms : List InboundMessage),
        (mergeBuffered m1 ms).content
          = (if ms.isEmpty then m1.content
             else String.intercalate "\n\n"
               ((m1 :: ms).map (fun m => "[" ++ m.sender_id ++ "] " ++ m.content))) ∧
        (mergeBuffered m1 ms).media = ((m1 :: ms).map (fun m => m.media)).flatten ∧
        dictGet (mergeBuffered m1 ms).metadata "collected_messages"
          = some (.arr ((m1 :: ms).map collectedEntry)) ∧
        dictGet (mergeBuffered m1 ms).metadata "collected_count"
          = some (.num (ms.length + 1)) ∧
        (mergeBuffered m1 ms).channel = m1.channel ∧
        (mergeBuffered m1 ms).sender_id = m1.sender_id ∧
        (mergeBuffered m1 ms).chat_id = m1.chat_id ∧
        (mergeBuffered m1 ms).timestamp = m1.timestamp) := by
  refine ⟨?_, ?_, ?_, ?_, ?_⟩
  · intro st K msg hact hK hkey
    have hcond : K ≠ "" ∧ msg.sessionKey = K := ⟨hK, hkey⟩
    constructor
    · simp [publishInbound, hact, if_pos hcond]
    · simp only [publishInbound, hact, if_pos hcond]
      rw [hkey]
      exact bufferGet_bufferAppend_same _ _ _
  · intro st K msg hact hkey
    have hcond : ¬(K ≠ "" ∧ msg.sessionKey = K) := fun h => hkey h.2
    constructor
    · simp [publishInbound, hact, if_neg hcond]
    · simp [publishInbound, hact, if_neg hcond]
  · intro st st' m h
    cases hq : st.inbound with
    | nil => simp [consumeInbound, hq] at h
    | cons a rest =>
        simp only [consumeInbound, hq, Option.some.injEq, Prod.mk.injEq] at h
        rw [← h.2, ← h.1]
  · intro st K msg m1 ms hact hkey hbuf
    subst hkey
    have hne : ¬(st.activeInboundSession ≠ some msg.sessionKey) := fun h => h hact
    simp [completeInboundTurn, if_neg hne, hbuf]
  · intro m1 ms
    refine ⟨?_, rfl, ?_, ?_, rfl, rfl, rfl, rfl⟩
    · cases ms with
      | nil => simp [mergeBuffered]
      | cons b bs => simp [mergeBuffered]
    · show dictGet (dictSet (dictSet m1.metadata "collected_messages" _)
        "collected_count" _) "collected_messages" = _
      rw [dictGet_dictSet_other _ _ _ _ (by decide), dictGet_dictSet_same]
    · show dictGet (dictSet (dictSet m1.metadata "collected_messages" _)
        "collected_count" _) "collected_count" = _
      rw [dictGet_dictSet_same]
      simp

/-- Concrete scenario for the buffering/merge behaviour: an active
telegram:c1 turn buffers alice's and bob's follow-ups, a publish for
chat c2 enqueues immediately, and completion enqueues the one merged
message with the blank-line-joined content. -/
def wMsg0 : InboundMessage :=
  { channel := "telegram", sender_id := "u0", chat_id := "c1"
    content := "current", timestamp := .txt "t0", media := [], metadata := [] }

def wAlice : InboundMessage :=
  { channel := "telegram", sender_id := "alice", chat_id := "c1"
    content := "one", timestamp := .txt "t1", media := ["a.jpg"], metadata := [] }

def wBob : InboundMessage :=
  { channel := "telegram", sender_id := "bob", chat_id := "c1"
    content := "two", timestamp := .txt "t2", media := ["b.jpg"], metadata := [] }

def wOther : InboundMessage :=
  { channel := "telegram", sender_id := "u2", chat_id := "c2"
    content := "other", timestamp := .txt "t3", media := [], metadata := [] }

def wSt0 : BusState :=
  { inbound := [wMsg0], activeInboundSession := none, collectBuffer := [] }

def wSt1 : BusState :=
  { inbound := [], activeInboundSession := some "telegram:c1", collectBuffer := [] }

def wSt2 : BusState :=
  { inbound := []
    activeInboundSession := some "telegram:c1"
    collectBuffer := [("telegram:c1", [wAlice, wBob])] }

theorem bus_inbound_buffering_spec_witness :
    (publishInbound wAlice wSt1).inbound = wSt1.inbound ∧
    bufferGet (publishInbound wAlice wSt1).collectBuffer "telegram:c1"
      = bufferGet wSt1.collectBuffer "telegram:c1" ++ [wAlice] ∧
    (publishInbound wOther wSt1).inbound = wSt1.inbound ++ [wOther] ∧
    wSt1.activeInboundSession = some wMsg0.sessionKey ∧
    (completeInboundTurn wMsg0 wSt2).inbound
      = wSt2.inbound ++ [mergeBuffered wAlice [wBob]] ∧
    (mergeBuffered wAlice [wBob]).content = "[alice] one\n\n[bob] two" := by
  obtain ⟨h1, h2, h3, h4, h5⟩ := bus_inbound_buffering_spec
  obtain ⟨ha, hb⟩ := h1 wSt1 "telegram:c1" wAlice rfl (by decide) rfl
  refine ⟨ha, hb, (h2 wSt1 "telegram:c1" wOther rfl (by decide)).1, ?_, ?_, ?_⟩
  · exact h3 wSt0 wSt1 wMsg0 rfl
  · exact (h4 wSt2 "telegram:c1" wMsg0 wAlice [wBob] rfl rfl rfl).1
  · rw [(h5 wAlice [wBob]).1]; decide

/-- Claim C10: a `complete_inbound_turn` whose message's session key
differs from the active session is a no-op (the whole bus state is
unchanged), and only a matching completion clears the active-session
marker. -/
theorem complete_inbound_turn_mismatch_noop :
    (∀ (st : BusState) (msg : InboundMessage),
        st.activeInboundSession ≠ some msg.sessionKey →
        completeInboundTurn msg st = st)
  ∧ (∀ (st : BusState) (msg : InboundMessage),
        st.activeInboundSession = some msg.sessionKey →
        (completeInboundTurn msg st).activeInboundSession = none) := by
  constructor
  · intro st msg h
    simp only [completeInboundTurn, if_pos h]
  · intro st msg h
    have hne : ¬(st.activeInboundSession ≠ some msg.sessionKey) := fun hh => hh h
    simp only [completeInboundTurn, if_neg hne]
    cases bufferGet st.collectBuffer msg.sessionKey <;> rfl

theorem complete_inbound_turn_mismatch_noop_witness :
    completeInboundTurn wOther wSt2 = wSt2 ∧
    (completeInboundTurn wMsg0 wSt2).activeInboundSession = none := by
  obtain ⟨h1, h2⟩ := complete_inbound_turn_mismatch_noop
  exact ⟨h1 wSt2 wOther (by intro h; simp [wSt2, wOther, InboundMessage.sessionKey] at h),
    h2 wSt2 wMsg0 rfl⟩

/-! ## Python string primitives shared by several components -/

/-- Unicode code points Python's `str.strip()` / `\s` treat as
whitespace. -/
def isPySpace (c : Char) : Bool :=
  let n := c.toNat
  (9 ≤ n && n ≤ 13) || (28 ≤ n && n ≤ 31) || n == 32 || n == 133 || n == 160 ||
    n == 5760 || (8192 ≤ n && n ≤ 8202) || n == 8232 || n == 8233 || n == 8239 ||
    n == 8287 || n == 12288

/-- Remove trailing Python whitespace from a character list. -/
def rstripChars (l : List Char) : List Char :=
  (l.reverse.dropWhile isPySpace).reverse

/-- Python `str.strip()` on a character list. -/
def pyStripChars (l : List Char) : List Char :=
  rstripChars (l.dropWhile isPySpace)

/-- Python `str.strip()`. -/
def pyStrip (s : String) : String :=
  String.mk (pyStripChars s.data)

/-! ## Consolidation scheduling (`AgentLoop._should_schedule_consolidation`) -/

/-- `AgentLoop._CONSOLIDATION_HARD_LIMIT`. -/
def CONSOLIDATION_HARD_LIMIT : Int := 30

/-- `AgentLoop._CONSOLIDATION_COOLDOWN_S = 15 * 60`. -/
def CONSOLIDATION_COOLDOWN_S : Int := 15 * 60

/-- `AgentLoop._compression_keep_count`:
`max(1, self.memory_window // 2)`. -/
def compressionKeepCount (memoryWindow : Nat) : Nat :=
  max 1 (memoryWindow / 2)

/-- The consolidation-relevant view of a `Session`: the message count,
the `last_consolidated` watermark (a Python int) and the already-parsed
`last_consolidated_at` instant in seconds (`none` models both a missing
and an unparseable ISO string, exactly the cases where
`_parse_iso_datetime` returns `None`). -/
structure SchedSession where
  msgCount : Nat
  lastConsolidated : Int
  lastConsolidatedAt : Option Int

/-- `AgentLoop._should_schedule_consolidation`, with `now` the current
time in seconds. `cws` is `self.compression_window_size` (already
clamped to `max(1, _)` by `__init__`). -/
def shouldScheduleConsolidation (memoryWindow cws : Nat) (now : Int)
    (s : SchedSession) : Bool :=
  let keepCount := compressionKeepCount memoryWindow
  if s.msgCount ≤ keepCount then false
  else
    let compressEnd : Int := (s.msgCount : Int) - keepCount
    let delta := compressEnd - s.lastConsolidated
    if delta ≤ 0 then false
    else if CONSOLIDATION_HARD_LIMIT ≤ delta then true
    else if (cws : Int) ≤ delta then true
    else
      match s.lastConsolidatedAt with
      | none => false
      | some t => decide (CONSOLIDATION_COOLDOWN_S ≤ now - t)

/-- Claim C2: with `keep = max(1, memory_window / 2)`,
`compress_end = total - keep` and `delta = compress_end -
last_consolidated`, consolidation is scheduled exactly when `delta > 0`
and moreover `delta ≥ 30`, or `delta ≥ compression_window_size`, or at
least 15 minutes have elapsed since `last_consolidated_at`. -/
theorem consolidation_trigger_iff (memoryWindow cws : Nat) (now : Int)
    (s : SchedSession) (hlc : 0 ≤ s.lastConsolidated) :
    shouldScheduleConsolidation memoryWindow cws now s = true ↔
      (let keep : Int := max 1 ((memoryWindow : Int) / 2)
       let delta : Int := ((s.msgCount : Int) - keep) - s.lastConsolidated
       0 < delta ∧
         (30 ≤ delta ∨ (cws : Int) ≤ delta ∨
           (match s.lastConsolidatedAt with
            | none => False
            | some t => 15 * 60 ≤ now - t))) := by
  have hkeep : ((compressionKeepCount memoryWindow : Nat) : Int)
      = max 1 ((memoryWindow : Int) / 2) := by
    unfold compressionKeepCount
    push_cast
    rfl
  unfold shouldScheduleConsolidation
  simp only
  by_cases h1 : s.msgCount ≤ compressionKeepCount memoryWindow
  · have hint : (s.msgCount : Int) ≤ max 1 ((memoryWindow : Int) / 2) := by
      rw [← hkeep]; exact_mod_cast h1
    simp only [if_pos h1, Bool.false_eq_true, false_iff]
    intro hcon
    omega
  · simp only [if_neg h1]
    have hint : ¬((s.msgCount : Int) ≤ max 1 ((memoryWindow : Int) / 2)) := by
      rw [← hkeep]; exact_mod_cast h1
    rw [← hkeep]
    by_cases h2 : (s.msgCount : Int) - (compressionKeepCount memoryWindow : Int)
        - s.lastConsolidated ≤ 0
    · simp only [if_pos h2, Bool.false_eq_true, false_iff]
      intro hcon
      omega
    · simp only [if_neg h2]
      by_cases h3 : CONSOLIDATION_HARD_LIMIT ≤
          (s.msgCount : Int) - (compressionKeepCount memoryWindow : Int)
            - s.lastConsolidated
      · simp only [if_pos h3, true_iff]
        unfold CONSOLIDATION_HARD_LIMIT at h3
        exact ⟨by omega, Or.inl (by omega)⟩
      · simp only [if_neg h3]
        by_cases h4 : ((cws : Nat) : Int) ≤
            (s.msgCount : Int) - (compressionKeepCount memoryWindow : Int)
              - s.lastConsolidated
        · simp only [if_pos h4, true_iff]
          exact ⟨by omega, Or.inr (Or.inl (by omega))⟩
        · simp only [if_neg h4]
          unfold CONSOLIDATION_HARD_LIMIT at h3
          cases hat : s.lastConsolidatedAt with
          | none =>
              simp only [Bool.false_eq_true, false_iff]
              intro hcon
              rcases hcon.2 with h | h | h
              · omega
              · omega
              · exact h
          | some t =>
              simp only [decide_eq_true_eq]
              unfold CONSOLIDATION_COOLDOWN_S
              constructor
              · intro h
                exact ⟨by omega, Or.inr (Or.inr h)⟩
              · intro hcon
                rcases hcon.2 with h | h | h
                · omega
                · omega
                · exact h

theorem consolidation_trigger_iff_witness :
    shouldScheduleConsolidation 50 12 0
      { msgCount := 60, lastConsolidated := 0, lastConsolidatedAt := none } = true := by
  exact (consolidation_trigger_iff 50 12 0
    { msgCount := 60, lastConsolidated := 0, lastConsolidatedAt := none }
    (by decide)).mpr (by decide)

/-! ## Consolidation run (`AgentLoop._consolidate_memory`)

The LLM call, the `json_repair` parse and the two memory writes are
external effects; they appear as explicitly quantified outcomes in
`ConsEnv`, while the control flow around them is translated from the
source. -/

/-- One session record as `_consolidate_memory` reads it. -/
structure ConsMsg where
  role : String
  content : Option String
  toolsUsed : List String
  timestamp : Option String

/-- The session state `_consolidate_memory` reads and writes. -/
structure ConsSession where
  messages : List ConsMsg
  lastConsolidated : Int
  lastConsolidatedAt : Option String

/-- Outcome of the `provider.chat` call inside the `try` block:
either it raises, or returns a response with the given content. -/
inductive ChatOutcome where
  | raises
  | ok (content : Option String)

/-- Outcome of `json_repair.loads` on the response text: not a dict, or
a dict holding the two optional string fields the code reads. -/
inductive ParsedJson where
  | notDict
  | dict (historyEntry : Option String) (memoryUpdate : Option String)

/-- The external effects of one consolidation run. -/
structure ConsEnv where
  chat : ChatOutcome
  parsed : ParsedJson
  appendHistoryRaises : Bool
  writeMemoryRaises : Bool
  currentMemory : String
  now : String

/-- Python truthiness of an optional string. -/
def strTruthy : Option String → Bool
  | none => false
  | some s => s ≠ ""

/-- Normalize one bound of a Python slice `l[a:b]`. -/
def pySliceNorm (len : Nat) (i : Int) : Nat :=
  if i < 0 then (max 0 ((len : Int) + i)).toNat else min i.toNat len

/-- Python list slicing `l[a:b]`. -/
def pySlice {α : Type} (l : List α) (a b : Int) : List α :=
  (l.take (pySliceNorm l.length b)).drop (pySliceNorm l.length a)

/-- `[{m.get('timestamp', '?')[:16]}] ROLE [tools: ...]: content` — one
serialized line, skipped entirely for falsy content. -/
def consLine (m : ConsMsg) : Option String :=
  match m.content with
  | none => none
  | some c =>
      if c = "" then none
      else
        let tools :=
          if m.toolsUsed.isEmpty then ""
          else " [tools: " ++ String.intercalate ", " m.toolsUsed ++ "]"
        some ("[" ++ ((m.timestamp.getD "?").take 16) ++ "] " ++
          m.role.toUpper ++ tools ++ ": " ++ c)

/-- The serialized conversation fed to the consolidation prompt. -/
def consConversation (old : List ConsMsg) : String :=
  String.intercalate "\n" (old.filterMap consLine)

/-- The `try` block of `_consolidate_memory` from the `provider.chat`
call onward, given the slice already selected and the watermark value
`next` to advance to.  Returns the resulting session state and whether
the final "consolidation done" log line was reached. -/
def consFinish (env : ConsEnv) (s : ConsSession) (next : Int) : ConsSession × Bool :=
  match env.chat with
  | .raises => (s, false)
  | .ok content =>
      let text := pyStrip (content.getD "")
      if text = "" then (s, false)
      else
        match env.parsed with
        | .notDict => (s, false)
        | .dict he mu =>
            if strTruthy he && env.appendHistoryRaises then (s, false)
            else if strTruthy mu && mu.getD "" ≠ env.currentMemory
                && env.writeMemoryRaises then (s, false)
            else
              ({ s with
                  lastConsolidated := next
                  lastConsolidatedAt := some env.now }, true)

/-- `AgentLoop._consolidate_memory` (the session-state view; the
`persist_session` flag only controls file I/O and the conversation
string only feeds the prompt). -/
def consolidateMemory (memoryWindow : Nat) (env : ConsEnv) (s : ConsSession)
    (archiveAll : Bool) : ConsSession × Bool :=
  let total := s.messages.length
  if archiveAll then
    consFinish env s 0
  else
    let keepCount := compressionKeepCount memoryWindow
    if total ≤ keepCount then (s, false)
    else
      let compressEnd : Int := (total : Int) - keepCount
      let delta := compressEnd - s.lastConsolidated
      if delta ≤ 0 then (s, false)
      else
        let old := pySlice s.messages s.lastConsolidated compressEnd
        if old.isEmpty then (s, false)
        else consFinish env s compressEnd

theorem consFinish_cases (env : ConsEnv) (s : ConsSession) (next : Int) :
    consFinish env s next = (s, false) ∨
    consFinish env s next =
      ({ s with
          lastConsolidated := next
          lastConsolidatedAt := some env.now }, true) := by
  unfold consFinish
  cases env.chat with
  | raises => exact Or.inl rfl
  | ok content =>
      dsimp only
      split
      · exact Or.inl rfl
      · cases env.parsed with
        | notDict => exact Or.inl rfl
        | dict he mu =>
            dsimp only
            split
            · exact Or.inl rfl
            · split
              · exact Or.inl rfl
              · exact Or.inr rfl

/-- `_consolidate_memory` either leaves the session untouched (with no
"done" log) or advances the watermarks, where the advanced value is 0
in archive-all mode and `compress_end` (strictly above the old
watermark, at most the message count when the old watermark was
in range) otherwise. -/
theorem consolidateMemory_cases (memoryWindow : Nat) (env : ConsEnv)
    (s : ConsSession) (archiveAll : Bool) :
    consolidateMemory memoryWindow env s archiveAll = (s, false) ∨
    (∃ next : Int,
      consolidateMemory memoryWindow env s archiveAll =
        ({ s with
            lastConsolidated := next
            lastConsolidatedAt := some env.now }, true) ∧
      ((archiveAll = true ∧ next = 0) ∨
       (archiveAll = false ∧
        next = (s.messages.length : Int) - compressionKeepCount memoryWindow ∧
        s.lastConsolidated < next ∧
        (1 : Int) ≤ compressionKeepCount memoryWindow))) := by
  unfold consolidateMemory
  by_cases harc : archiveAll
  · simp only [if_pos harc]
    rcases consFinish_cases env s 0 with h | h
    · exact Or.inl h
    · exact Or.inr ⟨0, h, Or.inl ⟨harc, rfl⟩⟩
  · simp only [if_neg harc]
    by_cases h1 : s.messages.length ≤ compressionKeepCount memoryWindow
    · simp only [if_pos h1]
      left
      trivial
    · simp only [if_neg h1]
      by_cases h2 : (s.messages.length : Int) - (compressionKeepCount memoryWindow : Int)
          - s.lastConsolidated ≤ 0
      · simp only [if_pos h2]
        left
        trivial
      · simp only [if_neg h2]
        by_cases h3 : (pySlice s.messages s.lastConsolidated
            ((s.messages.length : Int) - (compressionKeepCount memoryWindow : Int))).isEmpty
        · simp only [if_pos h3]
          left
          trivial
        · simp only [if_neg h3]
          rcases consFinish_cases env s
              ((s.messages.length : Int) - (compressionKeepCount memoryWindow : Int)) with h | h
          · exact Or.inl h
          · refine Or.inr ⟨_, h, Or.inr ⟨by simpa using harc, rfl, by omega, ?_⟩⟩
            have hkeep1 : 1 ≤ compressionKeepCount memoryWindow := le_max_left _ _
            exact_mod_cast hkeep1

/-- Claim C3: a successful consolidation advances `last_consolidated`
to `compress_end` (so the watermark never moves backwards and stays
within the message count) and stamps `last_consolidated_at`; any
failure of the LLM call, the JSON parse or a memory write leaves the
session untouched; and `0 ≤ last_consolidated ≤ len(messages)` is
preserved in every case. -/
theorem consolidation_watermark_safety (memoryWindow : Nat) (env : ConsEnv)
    (s : ConsSession) (archiveAll : Bool)
    (hlc0 : 0 ≤ s.lastConsolidated)
    (hlc1 : s.lastConsolidated ≤ (s.messages.length : Int)) :
    ((consolidateMemory memoryWindow env s archiveAll).2 = true →
      archiveAll = false →
      (consolidateMemory memoryWindow env s archiveAll).1.lastConsolidated
        = (s.messages.length : Int) - compressionKeepCount memoryWindow ∧
      s.lastConsolidated ≤
        (consolidateMemory memoryWindow env s archiveAll).1.lastConsolidated ∧
      (consolidateMemory memoryWindow env s archiveAll).1.lastConsolidated
        ≤ (s.messages.length : Int) ∧
      (consolidateMemory memoryWindow env s archiveAll).1.lastConsolidatedAt
        = some env.now) ∧
    ((consolidateMemory memoryWindow env s archiveAll).2 = false →
      (consolidateMemory memoryWindow env s archiveAll).1 = s) ∧
    (0 ≤ (consolidateMemory memoryWindow env s archiveAll).1.lastConsolidated ∧
      (consolidateMemory memoryWindow env s archiveAll).1.lastConsolidated
        ≤ ((consolidateMemory memoryWindow env s archiveAll).1.messages.length : Int)) := by
  rcases consolidateMemory_cases memoryWindow env s archiveAll with h | ⟨next, h, hnext⟩
  · rw [h]
    exact ⟨fun hf => by simp at hf, fun _ => rfl, hlc0, hlc1⟩
  · rw [h]
    dsimp only
    rcases hnext with ⟨ht, h0⟩ | ⟨hf, hval, hlt, hk1⟩
    · subst h0
      refine ⟨fun _ hfalse => ?_, fun hfalse => by simp at hfalse, le_refl 0, ?_⟩
      · rw [hfalse] at ht
        exact absurd ht (by simp)
      · exact Int.ofNat_nonneg _
    · refine ⟨fun _ _ => ⟨hval, by omega, by omega, by trivial⟩,
        fun hfalse => by simp at hfalse, by omega, by omega⟩

/-- Concrete consolidation scenario: 10 messages, watermark 2,
`memory_window = 4` (keep 2, compress_end 8), a successful LLM/parse
run: the watermark advances to 8. -/
def wConsEnv : ConsEnv :=
  { chat := .ok (some "x")
    parsed := .dict (some "e") none
    appendHistoryRaises := false
    writeMemoryRaises := false
    currentMemory := ""
    now := "T" }

def wConsSession : ConsSession :=
  { messages := List.replicate 10
      { role := "user", content := some "hi", toolsUsed := [], timestamp := none }
    lastConsolidated := 2
    lastConsolidatedAt := none }

theorem consolidation_watermark_safety_witness :
    (consolidateMemory 4 wConsEnv wConsSession false).1.lastConsolidated = 8 ∧
    (consolidateMemory 4 wConsEnv wConsSession false).1.lastConsolidatedAt = some "T" := by
  have h := consolidation_watermark_safety 4 wConsEnv wConsSession false
    (by decide) (by simp [wConsSession])
  obtain ⟨ha, _, _, hd⟩ := h.1 (by decide) rfl
  refine ⟨?_, hd⟩
  rw [ha]
  simp [wConsSession, compressionKeepCount]

/-! ## Outbound delivery waiters (`MessageBus.create_outbound_waiter`)

An `asyncio.Future` is modelled as a slot in an arena of future states;
`create_future()` appends a fresh pending slot, `set_result` fills a
pending slot.  `_outbound_waiters` maps request ids to arena slots. -/

/-- The observable state of an `asyncio.Future[tuple[bool, str | None]]`. -/
inductive FutureState where
  | pending
  | resolved (success : Bool) (error : Option String)
  deriving DecidableEq

/-- The waiter-related state of a `MessageBus`. -/
structure WaiterState where
  futures : List FutureState
  waiters : List (String × Nat)

/-- Dict lookup in `_outbound_waiters`. -/
def waiterLookup : List (String × Nat) → String → Option Nat
  | [], _ => none
  | p :: rest, k => if p.1 = k then some p.2 else waiterLookup rest k

/-- `self._outbound_waiters.pop(request_id, None)`: the remaining dict. -/
def waiterRemove (w : List (String × Nat)) (k : String) : List (String × Nat) :=
  w.filter (fun p => p.1 ≠ k)

/-- `fut.set_result(...)` guarded by `not fut.done()`: fill the slot
only when it is still pending. -/
def futureResolve (fs : List FutureState) (i : Nat) (success : Bool)
    (error : Option String) : List FutureState :=
  match fs[i]? with
  | some .pending => fs.set i (.resolved success error)
  | _ => fs

/-- `MessageBus.create_outbound_waiter`: create a fresh future, resolve
a still-pending previous waiter for the same id as superseded, and
register the fresh future under the id.  Returns the fresh future's
arena slot. -/
def createOutboundWaiter (requestId : String) (st : WaiterState) :
    Nat × WaiterState :=
  let fresh := st.futures.length
  let fs := st.futures ++ [FutureState.pending]
  let fs :=
    match waiterLookup st.waiters requestId with
    | some oldIdx => futureResolve fs oldIdx false
        (some "superseded by a newer outbound request")
    | none => fs
  (fresh, { futures := fs
            waiters := waiterRemove st.waiters requestId ++ [(requestId, fresh)] })

theorem waiterLookup_append_self (w : List (String × Nat)) (k : String) (i : Nat) :
    waiterLookup (waiterRemove w k ++ [(k, i)]) k = some i := by
  induction w with
  | nil => simp [waiterLookup, waiterRemove]
  | cons p rest ih =>
      by_cases hp : p.1 = k
      · simpa [waiterRemove, hp] using ih
      · simpa [waiterRemove, waiterLookup, hp] using ih

/-- Claim C9: creating a waiter over an unresolved waiter registered
under the same request id (a slot of the existing arena) resolves the
old future with `(False, "superseded by a newer outbound request")` and
registers the fresh pending future as the only waiter for that id; an
already-resolved old future is left untouched. -/
theorem create_outbound_waiter_supersedes (st : WaiterState) (rid : String)
    (oldIdx : Nat) (hold : waiterLookup st.waiters rid = some oldIdx)
    (hwf : oldIdx < st.futures.length) :
    ((st.futures[oldIdx]? = some .pending →
        (createOutboundWaiter rid st).2.futures[oldIdx]?
          = some (.resolved false (some "superseded by a newer outbound request"))) ∧
     (∀ b e, st.futures[oldIdx]? = some (.resolved b e) →
        (createOutboundWaiter rid st).2.futures[oldIdx]? = some (.resolved b e)) ∧
     waiterLookup (createOutboundWaiter rid st).2.waiters rid
        = some (createOutboundWaiter rid st).1 ∧
     (createOutboundWaiter rid st).2.futures[(createOutboundWaiter rid st).1]?
        = some .pending ∧
     ((createOutboundWaiter rid st).2.waiters.filter
        (fun p => p.1 = rid)).length = 1) := by
  refine ⟨?_, ?_, ?_, ?_, ?_⟩
  · intro hp
    have happ : (st.futures ++ [FutureState.pending])[oldIdx]? = some .pending := by
      rw [List.getElem?_append_left hwf]
      exact hp
    simp only [createOutboundWaiter, hold, futureResolve, happ]
    exact List.getElem?_set_eq_of_lt _ (by simpa using Nat.lt_succ_of_lt hwf)
  · intro b e hp
    have happ : (st.futures ++ [FutureState.pending])[oldIdx]?
        = some (.resolved b e) := by
      rw [List.getElem?_append_left hwf]
      exact hp
    simp only [createOutboundWaiter, hold, futureResolve, happ]
  · simp only [createOutboundWaiter]
    exact waiterLookup_append_self _ _ _
  · simp only [createOutboundWaiter, hold, futureResolve]
    cases hv : (st.futures ++ [FutureState.pending])[oldIdx]? with
    | none => exact List.getElem?_concat_length _ _
    | some v =>
        cases v with
        | pending =>
            rw [List.getElem?_set_ne (show oldIdx ≠ st.futures.length by omega)]
            exact List.getElem?_concat_length _ _
        | resolved b e => exact List.getElem?_concat_length _ _
  · simp only [createOutboundWaiter]
    rw [List.filter_append]
    have hrem : (waiterRemove st.waiters rid).filter (fun p => p.1 = rid) = [] := by
      unfold waiterRemove
      rw [List.filter_filter]
      apply List.filter_eq_nil_iff.mpr
      intro p _
      by_cases hp : p.1 = rid <;> simp [hp]
    rw [hrem]
    simp

def wWaiterSt : WaiterState :=
  { futures := [FutureState.pending], waiters := [("req1", 0)] }

theorem create_outbound_waiter_supersedes_witness :
    (createOutboundWaiter "req1" wWaiterSt).2.futures[(0 : Nat)]?
      = some (.resolved false (some "superseded by a newer outbound request")) ∧
    waiterLookup (createOutboundWaiter "req1" wWaiterSt).2.waiters "req1"
      = some (createOutboundWaiter "req1" wWaiterSt).1 ∧
    (createOutboundWaiter "req1" wWaiterSt).2.futures[(createOutboundWaiter
        "req1" wWaiterSt).1]? = some .pending := by
  have h := create_outbound_waiter_supersedes wWaiterSt "req1" 0 rfl (by decide)
  exact ⟨h.1 rfl, h.2.2.1, h.2.2.2.1⟩

/-! ## Provider adapter (`providers/litellm_provider.py`) -/

/-- A JSON value, as produced by `json.loads` /
`json.JSONDecoder().raw_decode`.  A non-integer numeral (and the
`NaN`/`Infinity` constants) decodes to a float in Python; the adapter
never computes with such a value, so the model carries the exact
matched lexeme instead of a floating-point number. -/
inductive JsonVal : Type where
  | null
  | bool (b : Bool)
  | num (n : Int)
  | fnum (lexeme : String)
  | str (s : String)
  | arr (v : List JsonVal)
  | obj (v : List (String × JsonVal))

/-- Modelled from the spec: `ToolCallRequest` (section 3;
`nanobot/providers/base.py` is not among the sources at hand): id,
name, and the decoded arguments mapping (possibly the synthetic
`{"raw": ...}` wrapper). -/
structure ToolCallRequest where
  id : String
  name : String
  arguments : JsonVal

/-- Modelled from the spec: `LLMResponse` (section 3): nullable
content, possibly-empty tool calls, finish_reason, usage counters,
nullable reasoning content. -/
structure LLMResponse where
  content : Option String
  tool_calls : List ToolCallRequest
  finish_reason : String
  usage : List (String × Nat)
  reasoning_content : Option String

/-- A Python exception as observed by `_format_exception`:
`type(exc).__name__` and `str(exc)`. -/
structure ExcInfo where
  typeName : String
  message : String

/-- `LiteLLMProvider._format_exception`:
`f"{name}: {msg}" if msg else name` with `msg = str(exc).strip()`. -/
def formatException (e : ExcInfo) : String :=
  let msg := pyStrip e.message
  if msg ≠ "" then e.typeName ++ ": " ++ msg else e.typeName

/-- Outcome of one transport attempt (a full stream or non-stream call
including parsing): a response, or a raised exception. -/
inductive CallOutcome where
  | ok (r : LLMResponse)
  | raises (e : ExcInfo)

/-- The fallback skeleton of `LiteLLMProvider.chat`: try the default
mode, on exception retry once in the other mode, and on double failure
return the synthetic error response
`LLMResponse(content=f"Error calling LLM: {err}", finish_reason="error")`
(the remaining fields keep their dataclass defaults). -/
def chatWithFallback (defaultStream : Bool)
    (streamCall nonStreamCall : CallOutcome) : LLMResponse :=
  match (if defaultStream then streamCall else nonStreamCall) with
  | .ok r => r
  | .raises _ =>
      match (if defaultStream then nonStreamCall else streamCall) with
      | .ok r => r
      | .raises e =>
          { content := some ("Error calling LLM: " ++ formatException e)
            tool_calls := []
            finish_reason := "error"
            usage := []
            reasoning_content := none }

/-- Claim C6: when both the default-mode call and the single
other-mode retry raise, `chat` returns normally with
`finish_reason = "error"`, no tool calls, and content
`"Error calling LLM: <ExceptionType>: <message>"` formatted from the
fallback exception (just the type when the stripped message is
empty). -/
theorem chat_double_failure (defaultStream : Bool) (es en : ExcInfo) :
    ((chatWithFallback defaultStream (.raises es) (.raises en)).finish_reason
        = "error") ∧
    ((chatWithFallback defaultStream (.raises es) (.raises en)).tool_calls = []) ∧
    (∀ fe : ExcInfo, fe = (if defaultStream then en else es) →
      (pyStrip fe.message ≠ "" →
        (chatWithFallback defaultStream (.raises es) (.raises en)).content
          = some ("Error calling LLM: " ++ fe.typeName ++ ": " ++ pyStrip fe.message)) ∧
      (pyStrip fe.message = "" →
        (chatWithFallback defaultStream (.raises es) (.raises en)).content
          = some ("Error calling LLM: " ++ fe.typeName))) := by
  cases defaultStream with
  | false =>
      refine ⟨rfl, rfl, ?_⟩
      intro fe hfe
      simp only [if_false, Bool.false_eq_true] at hfe
      subst hfe
      constructor
      · intro hne
        simp only [chatWithFallback, if_neg (by simp : ¬(false = true)),
          formatException]
        rw [if_pos hne]
        simp [String.append_assoc]
      · intro heq
        simp only [chatWithFallback, if_neg (by simp : ¬(false = true)),
          formatException]
        rw [heq]
        simp
  | true =>
      refine ⟨rfl, rfl, ?_⟩
      intro fe hfe
      simp only [if_true] at hfe
      subst hfe
      constructor
      · intro hne
        simp only [chatWithFallback, if_true, formatException]
        rw [if_pos hne]
        simp [String.append_assoc]
      · intro heq
        simp only [chatWithFallback, if_true, formatException]
        rw [heq]
        simp

theorem chat_double_failure_witness :
    (chatWithFallback true (.raises ⟨"APIError", " boom "⟩)
        (.raises ⟨"Timeout", "slow"⟩)).finish_reason = "error" ∧
    (chatWithFallback true (.raises ⟨"APIError", " boom "⟩)
        (.raises ⟨"Timeout", "slow"⟩)).content
      = some "Error calling LLM: Timeout: slow" ∧
    (chatWithFallback false (.raises ⟨"ValueError", "  "⟩)
        (.raises ⟨"Timeout", "slow"⟩)).content
      = some "Error calling LLM: ValueError" := by
  refine ⟨(chat_double_failure true ⟨"APIError", " boom "⟩ ⟨"Timeout", "slow"⟩).1,
    ?_, ?_⟩
  · have h := ((chat_double_failure true ⟨"APIError", " boom "⟩
      ⟨"Timeout", "slow"⟩).2.2 ⟨"Timeout", "slow"⟩ rfl).1 (by decide)
    rw [h]
    rfl
  · exact ((chat_double_failure false ⟨"ValueError", "  "⟩
      ⟨"Timeout", "slow"⟩).2.2 ⟨"ValueError", "  "⟩ rfl).2 (by decide)

/-! ## Agent tool-calling loop (`AgentLoop._run_agent_loop`)

The provider, the tool registry and `json.dumps` are external to the
loop's control flow; they appear as the quantified `LoopEnv`.  The
message-list bookkeeping feeds only those external calls and is not
part of the loop's observable result. -/

/-- Modelled from the spec: `response.has_tool_calls` holds when
`tool_calls` is non-empty (`nanobot/providers/base.py` is not among
the sources at hand). -/
def hasToolCalls (r : LLMResponse) : Bool :=
  r.tool_calls.isEmpty = false

/-- `response.finish_reason or "unknown"`. -/
def orUnknown (s : String) : String :=
  if s = "" then "unknown" else s

/-- `args_str[:100] + ("..." if len(args_str) > 100 else "")`. -/
def truncArgs (s : String) : String :=
  s.take 100 ++ (if s.length > 100 then "..." else "")

/-- `(result[:200] + "...(truncated)") if len(result) > 200 else result`. -/
def truncResult (s : String) : String :=
  if s.length > 200 then s.take 200 ++ "...(truncated)" else s

/-- External world of one `_run_agent_loop` run: the provider response
of each (1-based) iteration, the registry result for the j-th tool call
of an iteration, and `json.dumps` on decoded arguments. -/
structure LoopEnv where
  respond : Nat → LLMResponse
  execResult : Nat → Nat → String
  dumps : JsonVal → String

/-- The tool-use log entries one tool-calling iteration appends. -/
def iterLogEntries (env : LoopEnv) (iteration : Nat) (r : LLMResponse) :
    List (String × String × String) :=
  r.tool_calls.enum.map (fun p =>
    (p.2.name, truncArgs (env.dumps p.2.arguments),
      truncResult (env.execResult iteration p.1)))

/-- The synthetic reply for a blank model answer without tool calls. -/
def emptyContentMessage (lastFR : String) (iteration maxIterations : Nat) : String :=
  "I could not produce a final response because the model returned empty/blank content " ++
    "(finish_reason=" ++ lastFR ++ ", iteration=" ++ toString iteration ++ "/" ++
    toString maxIterations ++ "). Please retry."

/-- The synthetic reply when the loop exits via the iteration cap. -/
def capMessage (maxIterations : Nat) (lastFR : String) : String :=
  "I stopped before a final response because the tool-call loop hit the iteration limit (" ++
    toString maxIterations ++ "). Last finish_reason=" ++ lastFR ++
    ". Please retry with a narrower request or increase agents.defaults.max_tool_iterations."

/-- The `while iteration < self.max_iterations` loop of
`_run_agent_loop`, carrying `iteration`, `last_finish_reason`,
`stashed_content` and `tool_use_log`.  Returns the loop's
`final_content` (`none` when the cap was hit), the last finish reason
and the log. -/
def runAgentIter (env : LoopEnv) (maxIterations iteration : Nat)
    (lastFR : String) (stash : Option String)
    (log : List (String × String × String)) :
    Option String × String × List (String × String × String) :=
  if iteration < maxIterations then
    let iter' := iteration + 1
    let response := env.respond iter'
    let lastFR' := orUnknown response.finish_reason
    if hasToolCalls response then
      let stash' :=
        match response.content with
        | some c => if c ≠ "" && pyStrip c ≠ "" then some c else stash
        | none => stash
      runAgentIter env maxIterations iter' lastFR' stash'
        (log ++ iterLogEntries env iter' response)
    else
      let blank :=
        match response.content with
        | none => true
        | some c => pyStrip c = ""
      let final :=
        if blank then
          if log.any (fun e => e.1 = "message") then ""
          else
            match stash with
            | some sc =>
                if sc = "" then emptyContentMessage lastFR' iter' maxIterations
                else sc
            | none => emptyContentMessage lastFR' iter' maxIterations
        else response.content.getD ""
      (some final, lastFR', log)
  else (none, lastFR, log)
termination_by maxIterations - iteration
decreasing_by omega

/-- `AgentLoop._run_agent_loop`: run the iteration loop from a fresh
state and synthesize the cap message when no final content was
produced. -/
def runAgentLoop (env : LoopEnv) (maxIterations : Nat) :
    String × String × List (String × String × String) :=
  match runAgentIter env maxIterations 0 "unknown" none [] with
  | (some final, fr, log) => (final, fr, log)
  | (none, fr, log) => (capMessage maxIterations fr, fr, log)

theorem runAgentIter_allTools (env : LoopEnv) (maxIterations : Nat) :
    ∀ fuel iteration lastFR stash log,
      maxIterations - iteration = fuel → iteration ≤ maxIterations →
      (∀ i, iteration < i → i ≤ maxIterations →
        hasToolCalls (env.respond i) = true) →
      ∃ log',
        runAgentIter env maxIterations iteration lastFR stash log =
          (none,
            (if iteration = maxIterations then lastFR
             else orUnknown (env.respond maxIterations).finish_reason),
            log') := by
  intro fuel
  induction fuel with
  | zero =>
      intro iteration lastFR stash log hfuel hle _
      have heq : iteration = maxIterations := by omega
      refine ⟨log, ?_⟩
      rw [runAgentIter]
      rw [if_neg (by omega), if_pos heq]
  | succ n ih =>
      intro iteration lastFR stash log hfuel hle hall
      have hlt : iteration < maxIterations := by omega
      have htc : hasToolCalls (env.respond (iteration + 1)) = true :=
        hall (iteration + 1) (by omega) (by omega)
      obtain ⟨log', hrec⟩ := ih (iteration + 1)
        (orUnknown (env.respond (iteration + 1)).finish_reason)
        (match (env.respond (iteration + 1)).content with
         | some c => if c ≠ "" && pyStrip c ≠ "" then some c else stash
         | none => stash)
        (log ++ iterLogEntries env (iteration + 1) (env.respond (iteration + 1)))
        (by omega) (by omega)
        (fun i hi1 hi2 => hall i (by omega) hi2)
      refine ⟨log', ?_⟩
      rw [runAgentIter]
      rw [if_pos hlt]
      simp only [htc, if_true]
      rw [hrec]
      by_cases hstep : iteration + 1 = maxIterations
      · rw [if_pos hstep, if_neg (by omega), hstep]
      · rw [if_neg hstep, if_neg (by omega)]

/-- Claim C8: when every iteration of the tool-calling loop returns a
response carrying tool calls, `_run_agent_loop` returns normally with
a final content string naming the configured iteration cap and the
last finish reason seen. -/
theorem agent_loop_iteration_cap (env : LoopEnv) (maxIterations : Nat)
    (hall : ∀ i, 1 ≤ i → i ≤ maxIterations →
      hasToolCalls (env.respond i) = true) :
    (runAgentLoop env maxIterations).1
      = capMessage maxIterations (runAgentLoop env maxIterations).2.1 ∧
    (0 < maxIterations →
      (runAgentLoop env maxIterations).2.1
        = orUnknown (env.respond maxIterations).finish_reason) ∧
    (maxIterations = 0 → (runAgentLoop env maxIterations).2.1 = "unknown") := by
  obtain ⟨log', hrun⟩ := runAgentIter_allTools env maxIterations
    (maxIterations - 0) 0 "unknown" none [] rfl (by omega)
    (fun i hi1 hi2 => hall i (by omega) hi2)
  unfold runAgentLoop
  rw [hrun]
  by_cases h0 : (0 : Nat) = maxIterations
  · rw [if_pos h0]
    exact ⟨rfl, fun hlt => by omega, fun _ => rfl⟩
  · rw [if_neg h0]
    exact ⟨rfl, fun _ => rfl, fun hz => by omega⟩

/-- Concrete iteration-cap scenario: a provider that always answers
with one tool call and `max_iterations = 2`. -/
def wLoopEnv : LoopEnv :=
  { respond := fun _ =>
      { content := none
        tool_calls := [{ id := "t1", name := "exec", arguments := .obj [] }]
        finish_reason := "tool_calls"
        usage := []
        reasoning_content := none }
    execResult := fun _ _ => "ok"
    dumps := fun _ => "{}" }

theorem agent_loop_iteration_cap_witness :
    (runAgentLoop wLoopEnv 2).1 = capMessage 2 "tool_calls" ∧
    (runAgentLoop wLoopEnv 2).2.1 = "tool_calls" := by
  have h := agent_loop_iteration_cap wLoopEnv 2 (fun i hi1 hi2 => rfl)
  have hfr : (runAgentLoop wLoopEnv 2).2.1 = "tool_calls" := by
    rw [h.2.1 (by omega)]
    rfl
  exact ⟨by rw [h.1, hfr], hfr⟩

/-! ## Stream tool-call fragment merging (`_stream_chat`)

The per-chunk `delta.tool_calls` entries are flattened in arrival order
into one list of fragments; the code folds them into the
`tool_calls_map` dict and finally walks the sorted keys. -/

/-- One tool-call fragment from a stream chunk: `tc.index`, `tc.id`
(`""` models both `None` and the empty string, which Python treats
identically here), and the optional `tc.function` part. -/
structure ToolCallDelta where
  index : Nat
  id : String
  hasFunction : Bool
  fnName : String
  fnArguments : String

/-- One value of `tool_calls_map`. -/
structure MergedToolCall where
  id : String
  name : String
  arguments : String

/-- The dict entry created when `idx not in tool_calls_map`. -/
def mtcInit (d : ToolCallDelta) : MergedToolCall :=
  { id := d.id
    name := if d.hasFunction then d.fnName else ""
    arguments := "" }

/-- The unconditional per-fragment update of a map entry. -/
def mtcApply (m : MergedToolCall) (d : ToolCallDelta) : MergedToolCall :=
  let m1 := if d.id ≠ "" then { m with id := d.id } else m
  if d.hasFunction then
    let m2 := if d.fnName ≠ "" then { m1 with name := d.fnName } else m1
    if d.fnArguments ≠ "" then
      { m2 with arguments := m2.arguments ++ d.fnArguments }
    else m2
  else m1

/-- Processing one fragment against the insertion-ordered map. -/
def stepDelta : List (Nat × MergedToolCall) → ToolCallDelta →
    List (Nat × MergedToolCall)
  | [], d => [(d.index, mtcApply (mtcInit d) d)]
  | p :: rest, d =>
      if p.1 = d.index then (p.1, mtcApply p.2 d) :: rest
      else p :: stepDelta rest d

/-- The whole-stream fold that builds `tool_calls_map`. -/
def foldDeltas (ds : List ToolCallDelta) : List (Nat × MergedToolCall) :=
  ds.foldl stepDelta []

/-- Dict lookup in `tool_calls_map`. -/
def assocGet : List (Nat × MergedToolCall) → Nat → Option MergedToolCall
  | [], _ => none
  | p :: rest, k => if p.1 = k then some p.2 else assocGet rest k

/-- `json.loads(args)` with the `{"raw": args}` fallback, the decoder
itself being the external `json` library. -/
def decodeArguments (decode : String → Option JsonVal) (args : String) : JsonVal :=
  match decode args with
  | some v => v
  | none => .obj [("raw", .str args)]

/-- The final pass of `_stream_chat`:
`for idx in sorted(tool_calls_map.keys())`, reading each entry back
from the dict (the `none` branch mirrors the impossible `KeyError`). -/
def mergedToolCalls (decode : String → Option JsonVal)
    (ds : List ToolCallDelta) : List ToolCallRequest :=
  (((foldDeltas ds).map Prod.fst).mergeSort (fun a b => a ≤ b)).map
    (fun i =>
      match assocGet (foldDeltas ds) i with
      | some m =>
          { id := m.id, name := m.name
            arguments := decodeArguments decode m.arguments }
      | none => { id := "", name := "", arguments := .null })

/-! ### Specification side: per-index declarative merge -/

/-- The fragments of one index, in arrival order. -/
def fragmentsFor (ds : List ToolCallDelta) (i : Nat) : List ToolCallDelta :=
  ds.filter (fun d => d.index = i)

/-- The argument text a fragment contributes. -/
def argFrag (d : ToolCallDelta) : String :=
  if d.hasFunction then d.fnArguments else ""

/-- The name a fragment provides. -/
def nameFrag (d : ToolCallDelta) : String :=
  if d.hasFunction then d.fnName else ""

/-- The last non-empty string of a list, or `""`. -/
def lastNonEmptyStr (l : List String) : String :=
  l.foldl (fun acc s => if s ≠ "" then s else acc) ""

/-- Concatenation of a list of strings in order. -/
def concatStr (l : List String) : String :=
  l.foldl (fun acc s => acc ++ s) ""

/-- The declaratively merged entry of one index's fragment list. -/
def declMerge (frs : List ToolCallDelta) : MergedToolCall :=
  { id := lastNonEmptyStr (frs.map (fun d => d.id))
    name := lastNonEmptyStr (frs.map nameFrag)
    arguments := concatStr (frs.map argFrag) }

/-- The distinct indices of the fragment stream, in first-arrival
order. -/
def firstIndices (ds : List ToolCallDelta) : List Nat :=
  ds.foldl (fun acc d => if d.index ∈ acc then acc else acc ++ [d.index]) []

/-- The indices sorted ascending, as the final pass emits them. -/
def sortedIndices (ds : List ToolCallDelta) : List Nat :=
  (firstIndices ds).mergeSort (fun a b => a ≤ b)

theorem declMerge_snoc (frs : List ToolCallDelta) (d : ToolCallDelta) :
    declMerge (frs ++ [d]) = mtcApply (declMerge frs) d := by
  unfold declMerge mtcApply lastNonEmptyStr concatStr
  simp only [List.map_append, List.foldl_append, List.map_cons, List.map_nil,
    List.foldl_cons, List.foldl_nil]
  by_cases hid : d.id ≠ "" <;>
    by_cases hfn : d.hasFunction <;>
      by_cases hnm : nameFrag d ≠ "" <;>
        by_cases har : d.fnArguments ≠ "" <;>
          simp_all [nameFrag, argFrag, String.append_empty]

theorem keys_stepDelta (acc : List (Nat × MergedToolCall)) (d : ToolCallDelta) :
    (stepDelta acc d).map Prod.fst =
      (if d.index ∈ acc.map Prod.fst then acc.map Prod.fst
       else acc.map Prod.fst ++ [d.index]) := by
  induction acc with
  | nil => simp [stepDelta]
  | cons p rest ih =>
      by_cases hp : p.1 = d.index
      · simp [stepDelta, hp]
      · have hne' : ¬(d.index = p.1) := fun h => hp h.symm
        simp only [stepDelta, if_neg hp, List.map_cons, List.mem_cons]
        rw [ih]
        by_cases hmem : d.index ∈ rest.map Prod.fst
        · simp [hmem, hne']
        · simp [hmem, hne']

theorem assocGet_stepDelta_ne (acc : List (Nat × MergedToolCall))
    (d : ToolCallDelta) (i : Nat) (hne : d.index ≠ i) :
    assocGet (stepDelta acc d) i = assocGet acc i := by
  induction acc with
  | nil => simp [stepDelta, assocGet, hne]
  | cons p rest ih =>
      have hin : ¬(i = d.index) := fun h => hne h.symm
      by_cases hp : p.1 = d.index
      · have hpi : ¬(p.1 = i) := by rw [hp]; exact hne
        simp [stepDelta, assocGet, hp, hpi, hne, hin]
      · by_cases hpi : p.1 = i
        · simp [stepDelta, assocGet, hp, hpi, hne, hin]
        · simp [stepDelta, assocGet, hp, hpi, hne, hin, ih]

theorem assocGet_stepDelta_eq (acc : List (Nat × MergedToolCall))
    (d : ToolCallDelta) :
    assocGet (stepDelta acc d) d.index =
      some (match assocGet acc d.index with
            | some m => mtcApply m d
            | none => mtcApply (mtcInit d) d) := by
  induction acc with
  | nil => simp [stepDelta, assocGet]
  | cons p rest ih =>
      by_cases hp : p.1 = d.index
      · simp [stepDelta, assocGet, hp]
      · simp [stepDelta, assocGet, hp, ih]

theorem mem_firstIndices_stepIdx (acc : List Nat) (j i : Nat) :
    (i ∈ (if j ∈ acc then acc else acc ++ [j])) ↔ (i ∈ acc ∨ i = j) := by
  by_cases h : j ∈ acc
  · rw [if_pos h]
    constructor
    · exact Or.inl
    · rintro (hi | hi)
      · exact hi
      · rw [hi]; exact h
  · rw [if_neg h]
    simp

theorem foldDeltas_snoc (ds : List ToolCallDelta) (d : ToolCallDelta) :
    foldDeltas (ds ++ [d]) = stepDelta (foldDeltas ds) d := by
  unfold foldDeltas
  rw [List.foldl_append]
  rfl

theorem firstIndices_snoc (ds : List ToolCallDelta) (d : ToolCallDelta) :
    firstIndices (ds ++ [d]) =
      (if d.index ∈ firstIndices ds then firstIndices ds
       else firstIndices ds ++ [d.index]) := by
  unfold firstIndices
  rw [List.foldl_append]
  rfl

theorem fragmentsFor_snoc (ds : List ToolCallDelta) (d : ToolCallDelta) (i : Nat) :
    fragmentsFor (ds ++ [d]) i =
      fragmentsFor ds i ++ (if d.index = i then [d] else []) := by
  unfold fragmentsFor
  rw [List.filter_append]
  by_cases h : d.index = i <;> simp [h]

/-- The fold's dict keys are the first-arrival distinct indices. -/
theorem keys_foldDeltas (ds : List ToolCallDelta) :
    (foldDeltas ds).map Prod.fst = firstIndices ds := by
  induction ds using List.reverseRecOn with
  | nil => rfl
  | append_singleton ds d ih =>
      rw [foldDeltas_snoc, keys_stepDelta, ih, firstIndices_snoc]

theorem assocGet_eq_none_of_not_mem (acc : List (Nat × MergedToolCall)) (i : Nat)
    (h : i ∉ acc.map Prod.fst) : assocGet acc i = none := by
  induction acc with
  | nil => rfl
  | cons p rest ih =>
      simp only [List.map_cons, List.mem_cons] at h
      push_neg at h
      simp only [assocGet, if_neg (fun hp : p.1 = i => h.1 hp.symm)]
      exact ih h.2

theorem not_mem_firstIndices_frag (ds : List ToolCallDelta) (i : Nat)
    (h : i ∉ firstIndices ds) : fragmentsFor ds i = [] := by
  induction ds using List.reverseRecOn with
  | nil => rfl
  | append_singleton ds d ih =>
      rw [firstIndices_snoc] at h
      rw [mem_firstIndices_stepIdx] at h
      push_neg at h
      rw [fragmentsFor_snoc, ih h.1, if_neg (fun hh => h.2 hh.symm)]
      rfl

theorem mtcApply_mtcInit (d : ToolCallDelta) :
    mtcApply (mtcInit d) d = declMerge [d] := by
  have h : declMerge ([] ++ [d]) = mtcApply (declMerge []) d := declMerge_snoc [] d
  simp only [List.nil_append] at h
  rw [h]
  unfold mtcApply mtcInit declMerge lastNonEmptyStr concatStr
  by_cases hid : d.id ≠ "" <;>
    by_cases hfn : d.hasFunction <;>
      by_cases hnm : d.fnName ≠ "" <;>
        by_cases har : d.fnArguments ≠ "" <;>
          simp_all [nameFrag, argFrag]

/-- The fold's dict value at a present index is the declarative merge
of that index's fragments. -/
theorem assocGet_foldDeltas (ds : List ToolCallDelta) (i : Nat)
    (hmem : i ∈ firstIndices ds) :
    assocGet (foldDeltas ds) i = some (declMerge (fragmentsFor ds i)) := by
  induction ds using List.reverseRecOn with
  | nil => simp [firstIndices] at hmem
  | append_singleton ds d ih =>
      rw [foldDeltas_snoc]
      by_cases hi : d.index = i
      · subst hi
        rw [assocGet_stepDelta_eq]
        rw [fragmentsFor_snoc, if_pos rfl]
        by_cases hprev : d.index ∈ firstIndices ds
        · rw [ih hprev, declMerge_snoc]
        · rw [assocGet_eq_none_of_not_mem _ _ (by rw [keys_foldDeltas]; exact hprev)]
          rw [not_mem_firstIndices_frag ds d.index hprev]
          simp only [List.nil_append]
          rw [mtcApply_mtcInit]
      · rw [assocGet_stepDelta_ne _ _ _ hi]
        rw [firstIndices_snoc, mem_firstIndices_stepIdx] at hmem
        have hmem' : i ∈ firstIndices ds := by
          rcases hmem with h | h
          · exact h
          · exact absurd h.symm hi
        rw [ih hmem', fragmentsFor_snoc, if_neg hi, List.append_nil]

/-- Claim C4: tool-call fragments sharing an index are merged into one
tool call whose argument text is the concatenation of the fragments'
argument strings in arrival order, whose id and name are the last
non-empty values any fragment provided, whose arguments mapping is the
decoded JSON (or the `{"raw": ...}` wrapper on decode failure), and the
merged calls are returned in increasing index order. -/
theorem stream_tool_call_merge (decode : String → Option JsonVal)
    (ds : List ToolCallDelta) :
    mergedToolCalls decode ds =
      (sortedIndices ds).map (fun i =>
        { id := lastNonEmptyStr ((fragmentsFor ds i).map (fun d => d.id))
          name := lastNonEmptyStr ((fragmentsFor ds i).map nameFrag)
          arguments :=
            decodeArguments decode
              (concatStr ((fragmentsFor ds i).map argFrag)) : ToolCallRequest }) := by
  unfold mergedToolCalls sortedIndices
  rw [keys_foldDeltas]
  apply List.map_congr_left
  intro i hi
  have hmem : i ∈ firstIndices ds := List.mem_mergeSort.mp hi
  rw [assocGet_foldDeltas ds i hmem]
  rfl

/-! ## SILENT-marker stripping (`AgentLoop._strip_silent_marker`)

`_SILENT_TRAILING_RE = re.compile(r"\[SILENT\][\s...]*$")` matches a
literal `[SILENT]` followed only by characters of a trailing class
(whitespace plus a set of punctuation code points, taken verbatim from
the source file) up to the end of the string.  `re.sub` removes the
leftmost such match (which always extends to the end), the `while` loop
repeats until no match remains, then runs of three or more newlines
collapse to two and the result is `str.strip()`ped. -/

/-- The characters of the regex's trailing class: `\s`, the ASCII
punctuation `. , ! ? ; : ~`, and the further literal code points that
appear in the source file's character class. -/
def isSilentTrailChar (c : Char) : Bool :=
  isPySpace c ||
    (c == '.' || c == ',' || c == '!' || c == '?' || c == ';' || c == ':' ||
      c == '~') ||
    (c.toNat == 0xef || c.toNat == 0xbc || c.toNat == 0x152 ||
      c.toNat == 0xe3 || c.toNat == 0x20ac || c.toNat == 0x201a ||
      c.toNat == 0x178 || c.toNat == 0x203a || c.toNat == 0x161 ||
      c.toNat == 0xe2 || c.toNat == 0xa6)

/-- The literal `[SILENT]` marker. -/
def SILENT_MARKER : List Char := ['[', 'S', 'I', 'L', 'E', 'N', 'T', ']']

/-- Does the regex match at this position, i.e. does the string start
with `[SILENT]` and continue with trailing-class characters to its
end? -/
def silentMatchAt (s : List Char) : Bool :=
  SILENT_MARKER.isPrefixOf s && (s.drop 8).all isSilentTrailChar

/-- Position of the leftmost regex match (`re.search`). -/
def findSilent : List Char → Option Nat
  | [] => none
  | c :: rest =>
      if silentMatchAt (c :: rest) then some 0
      else (findSilent rest).map (fun i => i + 1)

/-- `bool(_SILENT_TRAILING_RE.search(content))`. -/
def hasSilentSuffix (s : List Char) : Bool :=
  (findSilent s).isSome

/-- One `re.sub` step removes the leftmost match, which always reaches
the end of the string: the remainder is the prefix before it.  The
`while` loop repeats while a match remains; every step removes at least
the eight marker characters, so the string length bounds the number of
iterations. -/
def dropSilentIter : Nat → List Char → List Char
  | 0, s => s
  | n + 1, s =>
      match findSilent s with
      | none => s
      | some i => dropSilentIter n (s.take i)

/-- The `while` loop of `_strip_silent_marker`. -/
def dropSilentAll (s : List Char) : List Char :=
  dropSilentIter s.length s

/-- The emitted form of a maximal newline run under
`re.sub(r"\n{3,}", "\n\n", _)`. -/
def emitRun (run : Nat) : List Char :=
  if 3 ≤ run then ['\n', '\n'] else List.replicate run '\n'

/-- Scan for `re.sub(r"\n{3,}", "\n\n", _)`: `run` counts the pending
newline run. -/
def collapseAux : List Char → Nat → List Char
  | [], run => emitRun run
  | c :: rest, run =>
      if c = '\n' then collapseAux rest (run + 1)
      else emitRun run ++ c :: collapseAux rest 0

/-- `re.sub(r"\n{3,}", "\n\n", s)`. -/
def collapseNewlines (s : List Char) : List Char :=
  collapseAux s 0

/-- `AgentLoop._strip_silent_marker` on the character list of a
non-`None` content string. -/
def stripSilentChars (s : List Char) : List Char :=
  if hasSilentSuffix s then pyStripChars (collapseNewlines (dropSilentAll s))
  else s

/-- `AgentLoop._strip_silent_marker` (string form). -/
def stripSilentMarker (s : String) : String :=
  String.mk (stripSilentChars s.data)

theorem findSilent_lt (s : List Char) (i : Nat) (h : findSilent s = some i) :
    i < s.length := by
  induction s generalizing i with
  | nil => simp [findSilent] at h
  | cons c rest ih =>
      unfold findSilent at h
      by_cases hm : silentMatchAt (c :: rest) = true
      · rw [if_pos hm] at h
        cases h
        simp
      · rw [if_neg hm] at h
        cases hr : findSilent rest with
        | none => rw [hr] at h; simp at h
        | some j =>
            rw [hr] at h
            simp at h
            have := ih j hr
            simp only [List.length_cons]
            omega

theorem hasSilentSuffix_cons (c : Char) (s : List Char) :
    hasSilentSuffix (c :: s) = (silentMatchAt (c :: s) || hasSilentSuffix s) := by
  unfold hasSilentSuffix
  rw [show findSilent (c :: s)
    = (if silentMatchAt (c :: s) then some 0
       else (findSilent s).map (fun i => i + 1)) from rfl]
  by_cases hm : silentMatchAt (c :: s) = true
  · simp [hm]
  · simp [hm, Option.isSome_map]

theorem silentMatchAt_iff (s : List Char) :
    silentMatchAt s = true ↔
      ∃ b, s = SILENT_MARKER ++ b ∧ b.all isSilentTrailChar = true := by
  unfold silentMatchAt
  rw [Bool.and_eq_true, List.isPrefixOf_iff_prefix]
  constructor
  · rintro ⟨⟨b, hb⟩, hall⟩
    refine ⟨b, hb.symm, ?_⟩
    have hd : s.drop 8 = b := by
      rw [← hb]
      simp [SILENT_MARKER]
    rwa [hd] at hall
  · rintro ⟨b, hb, hall⟩
    subst hb
    refine ⟨⟨b, rfl⟩, ?_⟩
    have hd : List.drop 8 (SILENT_MARKER ++ b) = b := by
      simp [SILENT_MARKER]
    rw [hd]
    exact hall

theorem hasSilentSuffix_iff (s : List Char) :
    hasSilentSuffix s = true ↔
      ∃ a b, s = a ++ SILENT_MARKER ++ b ∧ b.all isSilentTrailChar = true := by
  induction s with
  | nil =>
      simp only [hasSilentSuffix, findSilent, Option.isSome_none,
        Bool.false_eq_true, false_iff]
      rintro ⟨a, b, hab, _⟩
      have : ([] : List Char).length = (a ++ SILENT_MARKER ++ b).length := by
        rw [hab]
      simp [SILENT_MARKER] at this
      omega
  | cons c rest ih =>
      rw [hasSilentSuffix_cons, Bool.or_eq_true, ih, silentMatchAt_iff]
      constructor
      · rintro (⟨b, hb, hall⟩ | ⟨a, b, hab, hall⟩)
        · exact ⟨[], b, by simpa using hb, hall⟩
        · exact ⟨c :: a, b, by simp [hab], hall⟩
      · rintro ⟨a, b, hab, hall⟩
        cases a with
        | nil =>
            left
            exact ⟨b, by simpa using hab, hall⟩
        | cons a0 arest =>
            right
            simp only [List.cons_append, List.cons.injEq] at hab
            exact ⟨arest, b, hab.2, hall⟩

theorem hasSilentSuffix_append_left (x u : List Char)
    (h : hasSilentSuffix u = true) : hasSilentSuffix (x ++ u) = true := by
  rw [hasSilentSuffix_iff] at h ⊢
  obtain ⟨a, b, hab, hall⟩ := h
  exact ⟨x ++ a, b, by simp [hab], hall⟩

theorem hasSilentSuffix_cons_of_ne (c : Char) (u : List Char)
    (hc : ¬c = '[') : hasSilentSuffix (c :: u) = hasSilentSuffix u := by
  rw [hasSilentSuffix_cons]
  have hbeq : (('[' : Char) == c) = false := by
    simpa using fun h : ('[' : Char) = c => hc h.symm
  have hm : silentMatchAt (c :: u) = false := by
    unfold silentMatchAt SILENT_MARKER
    simp only [List.isPrefixOf, hbeq, Bool.false_and]
  rw [hm, Bool.false_or]

theorem hasSilentSuffix_replicate_nl (k : Nat) (u : List Char)
    (h : hasSilentSuffix (List.replicate k '\n' ++ u) = true) :
    hasSilentSuffix u = true := by
  induction k with
  | zero => simpa using h
  | succ n ih =>
      rw [List.replicate_succ, List.cons_append,
        hasSilentSuffix_cons_of_ne _ _ (by decide)] at h
      exact ih h

theorem emitRun_eq_replicate (run : Nat) :
    ∃ k, emitRun run = List.replicate k '\n' := by
  unfold emitRun
  by_cases h : 3 ≤ run
  · exact ⟨2, by rw [if_pos h]; rfl⟩
  · exact ⟨run, by rw [if_neg h]⟩

theorem collapseAux_cons (c : Char) (rest : List Char) (run : Nat) :
    collapseAux (c :: rest) run =
      (if c = '\n' then collapseAux rest (run + 1)
       else emitRun run ++ c :: collapseAux rest 0) := rfl

theorem collapseAux_all_class (u : List Char) :
    ∀ run, (collapseAux u run).all isSilentTrailChar = true →
      u.all isSilentTrailChar = true := by
  induction u with
  | nil => intro run _; rfl
  | cons c rest ih =>
      intro run h
      by_cases hc : c = '\n'
      · subst hc
        rw [collapseAux_cons, if_pos rfl] at h
        have := ih (run + 1) h
        simp only [List.all_cons, this, Bool.and_true]
        decide
      · rw [collapseAux_cons, if_neg hc] at h
        rw [List.all_append, List.all_cons] at h
        rw [Bool.and_eq_true, Bool.and_eq_true] at h
        simp only [List.all_cons, h.2.1, Bool.true_and]
        exact ih 0 h.2.2

theorem collapseAux_pos_run_head (r : List Char) :
    ∀ run, 1 ≤ run →
      collapseAux r run = [] ∨ ∃ w, collapseAux r run = '\n' :: w := by
  induction r with
  | nil =>
      intro run hrun
      rw [show collapseAux [] run = emitRun run from rfl]
      unfold emitRun
      by_cases h3 : 3 ≤ run
      · exact Or.inr ⟨['\n'], by rw [if_pos h3]⟩
      · refine Or.inr ⟨List.replicate (run - 1) '\n', ?_⟩
        rw [if_neg h3]
        conv_lhs => rw [show run = (run - 1) + 1 by omega]
        rw [List.replicate_succ]
  | cons c rest ih =>
      intro run hrun
      by_cases hc : c = '\n'
      · subst hc
        rw [collapseAux_cons, if_pos rfl]
        exact ih (run + 1) (by omega)
      · rw [collapseAux_cons, if_neg hc]
        unfold emitRun
        by_cases h3 : 3 ≤ run
        · exact Or.inr ⟨'\n' :: (c :: collapseAux rest 0), by rw [if_pos h3]; rfl⟩
        · refine Or.inr ⟨List.replicate (run - 1) '\n' ++ c :: collapseAux rest 0, ?_⟩
          rw [if_neg h3]
          conv_lhs => rw [show run = (run - 1) + 1 by omega]
          rw [List.replicate_succ]
          rfl

theorem collapseAux_head_ne_nl (u : List Char) (x : Char) (w : List Char)
    (hx : ¬x = '\n') (h : collapseAux u 0 = x :: w) :
    ∃ u', u = x :: u' ∧ w = collapseAux u' 0 := by
  cases u with
  | nil => simp [collapseAux, emitRun] at h
  | cons y r =>
      by_cases hy : y = '\n'
      · subst hy
        rw [collapseAux_cons, if_pos rfl] at h
        rcases collapseAux_pos_run_head r 1 (le_refl 1) with hnil | ⟨w', hw'⟩
        · rw [show (0 : Nat) + 1 = 1 from rfl, hnil] at h
          exact absurd h (by simp)
        · rw [show (0 : Nat) + 1 = 1 from rfl, hw'] at h
          cases h
          exact absurd rfl hx
      · rw [collapseAux_cons, if_neg hy,
          show emitRun 0 = [] from rfl, List.nil_append] at h
        cases h
        exact ⟨r, rfl, rfl⟩

theorem collapseAux_peel (p : List Char) :
    ∀ u w, (∀ c ∈ p, ¬c = '\n') → collapseAux u 0 = p ++ w →
      ∃ u', u = p ++ u' ∧ w = collapseAux u' 0 := by
  induction p with
  | nil => intro u w _ h; exact ⟨u, rfl, by simpa using h.symm⟩
  | cons x prest ih =>
      intro u w hp h
      obtain ⟨u', hu, hw⟩ := collapseAux_head_ne_nl u x (prest ++ w)
        (hp x (List.mem_cons_self x prest)) (by simpa using h)
      obtain ⟨u'', hu2, hw2⟩ := ih u' w
        (fun c hc => hp c (List.mem_cons_of_mem x hc)) hw.symm
      exact ⟨u'', by rw [hu, hu2]; rfl, hw2⟩

/-- Collapsing newline runs cannot create a SILENT suffix match. -/
theorem collapse_pullback (t : List Char) :
    ∀ run, hasSilentSuffix (collapseAux t run) = true →
      hasSilentSuffix t = true := by
  induction t with
  | nil =>
      intro run h
      exfalso
      obtain ⟨k, hk⟩ := emitRun_eq_replicate run
      rw [show collapseAux [] run = emitRun run from rfl, hk] at h
      have h2 : hasSilentSuffix ([] : List Char) = true := by
        apply hasSilentSuffix_replicate_nl k
        rwa [List.append_nil]
      exact absurd h2 (by decide)
  | cons c rest ih =>
      intro run h
      by_cases hc : c = '\n'
      · subst hc
        rw [collapseAux_cons, if_pos rfl] at h
        rw [hasSilentSuffix_cons_of_ne _ _ (by decide)]
        exact ih (run + 1) h
      · rw [collapseAux_cons, if_neg hc] at h
        obtain ⟨k, hk⟩ := emitRun_eq_replicate run
        rw [hk] at h
        have h2 := hasSilentSuffix_replicate_nl k _ h
        rw [hasSilentSuffix_cons, Bool.or_eq_true] at h2
        rcases h2 with hm | hs
        · rw [silentMatchAt_iff] at hm
          obtain ⟨b, hb, hball⟩ := hm
          rw [show SILENT_MARKER ++ b
              = '[' :: (['S', 'I', 'L', 'E', 'N', 'T', ']'] ++ b) from rfl] at hb
          have hc0 : c = '[' := by
            injection hb with h1 _
          have htail : collapseAux rest 0 = ['S', 'I', 'L', 'E', 'N', 'T', ']'] ++ b := by
            injection hb with _ h2
          obtain ⟨u', hu, hb2⟩ := collapseAux_peel
            ['S', 'I', 'L', 'E', 'N', 'T', ']'] rest b (by decide) htail
          have hu'all : u'.all isSilentTrailChar = true := by
            apply collapseAux_all_class u' 0
            rw [← hb2]
            exact hball
          rw [hasSilentSuffix_cons, Bool.or_eq_true]
          left
          rw [silentMatchAt_iff]
          refine ⟨u', ?_, hu'all⟩
          rw [hc0, hu]
          rfl
        · rw [hasSilentSuffix_cons, Bool.or_eq_true]
          right
          exact ih 0 hs

/-- The `while` loop's fixpoint: no SILENT suffix remains. -/
theorem dropSilentIter_no_suffix (n : Nat) :
    ∀ s : List Char, s.length ≤ n →
      hasSilentSuffix (dropSilentIter n s) = false := by
  induction n with
  | zero =>
      intro s h
      have hs : s = [] := List.eq_nil_of_length_eq_zero (by omega)
      subst hs
      rfl
  | succ n ih =>
      intro s h
      unfold dropSilentIter
      cases hf : findSilent s with
      | none =>
          unfold hasSilentSuffix
          rw [hf]
          rfl
      | some i =>
          apply ih
          have hlt := findSilent_lt s i hf
          rw [List.length_take]
          omega

theorem dropSilentAll_no_suffix (s : List Char) :
    hasSilentSuffix (dropSilentAll s) = false :=
  dropSilentIter_no_suffix s.length s (le_refl _)

theorem isSilentTrailChar_of_pySpace (c : Char) (h : isPySpace c = true) :
    isSilentTrailChar c = true := by
  unfold isSilentTrailChar
  rw [h]
  rfl

theorem rstrip_decomp (u : List Char) :
    ∃ w, u = rstripChars u ++ w ∧ w.all isPySpace = true := by
  refine ⟨(u.reverse.takeWhile isPySpace).reverse, ?_, ?_⟩
  · unfold rstripChars
    rw [← List.reverse_append, List.takeWhile_append_dropWhile,
      List.reverse_reverse]
  · rw [List.all_reverse]
    exact List.all_eq_true.mpr fun c hc => List.mem_takeWhile_imp hc

/-- `str.strip()` cannot create a SILENT suffix match. -/
theorem pyStrip_pullback (t : List Char)
    (h : hasSilentSuffix (pyStripChars t) = true) :
    hasSilentSuffix t = true := by
  obtain ⟨w, hw, hwall⟩ := rstrip_decomp (t.dropWhile isPySpace)
  rw [hasSilentSuffix_iff] at h
  obtain ⟨a, b, hab, hball⟩ := h
  rw [hasSilentSuffix_iff]
  refine ⟨t.takeWhile isPySpace ++ a, b ++ w, ?_, ?_⟩
  · conv_lhs => rw [← List.takeWhile_append_dropWhile (p := isPySpace) (l := t)]
    rw [hw]
    unfold pyStripChars at hab
    rw [hab]
    simp
  · rw [List.all_append, hball, Bool.true_and]
    exact List.all_eq_true.mpr fun c hc =>
      isSilentTrailChar_of_pySpace c (List.all_eq_true.mp hwall c hc)

theorem stripSilentChars_no_suffix (s : List Char) :
    hasSilentSuffix (stripSilentChars s) = false := by
  unfold stripSilentChars
  by_cases hs : hasSilentSuffix s = true
  · rw [if_pos hs]
    by_contra hcon
    rw [Bool.not_eq_false] at hcon
    have h1 := pyStrip_pullback _ hcon
    have h2 := collapse_pullback (dropSilentAll s) 0 h1
    rw [dropSilentAll_no_suffix s] at h2
    exact absurd h2 (by decide)
  · rw [if_neg hs]
    exact Bool.not_eq_true _ |>.mp hs

/-- Claim C7: SILENT-marker stripping is idempotent, and the identity
on every string that does not end in `[SILENT]` followed only by
whitespace/terminal punctuation (i.e. on which the trailing regex does
not match). -/
theorem silent_strip_spec :
    (∀ s : String, stripSilentMarker (stripSilentMarker s) = stripSilentMarker s) ∧
    (∀ s : String, hasSilentSuffix s.data = false → stripSilentMarker s = s) := by
  have hid : ∀ l : List Char, hasSilentSuffix l = false → stripSilentChars l = l := by
    intro l hl
    unfold stripSilentChars
    rw [if_neg (by rw [hl]; exact Bool.false_ne_true)]
  constructor
  · intro s
    unfold stripSilentMarker
    congr 1
    exact hid _ (stripSilentChars_no_suffix s.data)
  · intro s h
    unfold stripSilentMarker
    rw [hid _ h]

theorem silent_strip_spec_witness :
    stripSilentMarker (stripSilentMarker "Done. [SILENT]")
      = stripSilentMarker "Done. [SILENT]" ∧
    hasSilentSuffix "hello".data = false ∧
    stripSilentMarker "hello" = "hello" ∧
    stripSilentMarker "Done. [SILENT]" = "Done." := by
  exact ⟨silent_strip_spec.1 "Done. [SILENT]", by decide,
    silent_strip_spec.2 "hello" (by decide), by decide⟩

/-! ## Text pseudo-tool-call recovery (`_coerce_stream_text_tool_calls`)

The scanner walks the stream text for `[tool_call]` markers, parses a
`<name>({...json...})` form after each one, collects the spans of
well-formed occurrences, excises them and synthesizes structured tool
calls.  `json.JSONDecoder().raw_decode` is the stdlib decoder; it is
modelled below by an executable recursive-descent decoder for the JSON
core (objects, arrays, strings with escapes, integers, `true`, `false`,
`null`); non-integer numerals are outside the model. -/

/-- JSON whitespace as accepted between tokens by the stdlib decoder. -/
def isJsonWs (c : Char) : Bool :=
  c == ' ' || c == '\t' || c == '\n' || c == '\r'

/-- Skip JSON inter-token whitespace. -/
def skipJsonWs (s : List Char) : List Char :=
  s.dropWhile isJsonWs

/-- Value of one hex digit. -/
def hexVal (c : Char) : Option Nat :=
  if c.isDigit then some (c.toNat - 48)
  else if 'a' ≤ c ∧ c ≤ 'f' then some (c.toNat - 87)
  else if 'A' ≤ c ∧ c ≤ 'F' then some (c.toNat - 55)
  else none

/-- The body of a JSON string after the opening quote: the decoded
characters and the remainder after the closing quote.  Mirrors the
strict-mode stdlib scanner: unescaped control characters are rejected,
and a `\uXXXX` high surrogate must be completed by a low surrogate
(a lone surrogate would decode to a string that is not a sequence of
Unicode scalar values, which the model's strings cannot carry). -/
def jsonStringChars : List Char → Option (List Char × List Char)
  | [] => none
  | '\"' :: rest => some ([], rest)
  | '\\' :: '\"' :: rest => (jsonStringChars rest).map (fun p => ('\"' :: p.1, p.2))
  | '\\' :: '\\' :: rest => (jsonStringChars rest).map (fun p => ('\\' :: p.1, p.2))
  | '\\' :: '/' :: rest => (jsonStringChars rest).map (fun p => ('/' :: p.1, p.2))
  | '\\' :: 'n' :: rest => (jsonStringChars rest).map (fun p => ('\n' :: p.1, p.2))
  | '\\' :: 't' :: rest => (jsonStringChars rest).map (fun p => ('\t' :: p.1, p.2))
  | '\\' :: 'r' :: rest => (jsonStringChars rest).map (fun p => ('\r' :: p.1, p.2))
  | '\\' :: 'b' :: rest => (jsonStringChars rest).map (fun p => ('\x08' :: p.1, p.2))
  | '\\' :: 'f' :: rest => (jsonStringChars rest).map (fun p => ('\x0c' :: p.1, p.2))
  | '\\' :: 'u' :: h1 :: h2 :: h3 :: h4 :: rest =>
      match hexVal h1, hexVal h2, hexVal h3, hexVal h4 with
      | some v1, some v2, some v3, some v4 =>
          let v := ((v1 * 16 + v2) * 16 + v3) * 16 + v4
          if 0xD800 ≤ v ∧ v ≤ 0xDBFF then
            match rest with
            | '\\' :: 'u' :: g1 :: g2 :: g3 :: g4 :: rest2 =>
                match hexVal g1, hexVal g2, hexVal g3, hexVal g4 with
                | some w1, some w2, some w3, some w4 =>
                    let w := ((w1 * 16 + w2) * 16 + w3) * 16 + w4
                    if 0xDC00 ≤ w ∧ w ≤ 0xDFFF then
                      (jsonStringChars rest2).map (fun p =>
                        (Char.ofNat (0x10000 + (v - 0xD800) * 0x400 + (w - 0xDC00))
                          :: p.1, p.2))
                    else none
                | _, _, _, _ => none
            | _ => none
          else if 0xDC00 ≤ v ∧ v ≤ 0xDFFF then none
          else (jsonStringChars rest).map (fun p => (Char.ofNat v :: p.1, p.2))
      | _, _, _, _ => none
  | '\\' :: _ => none
  | c :: rest =>
      if c.toNat < 32 then none
      else
        match jsonStringChars rest with
        | some (cs, r) => some (c :: cs, r)
        | none => none

/-- Digits to their decimal value. -/
def digitsToNat (ds : List Char) : Nat :=
  ds.foldl (fun acc c => acc * 10 + (c.toNat - 48)) 0

/-- A JSON numeral, per the stdlib's
`(-?(?:0|[1-9]\d*))(\.\d+)?([eE][-+]?\d+)?` scan at the current
position: the integer part is `0` or has no leading zero, the
fractional and exponent parts are optional and greedy, and the match
consumes only as far as the grammar allows.  A pure integer yields
`num`; any fractional/exponent form yields the `fnum` lexeme. -/
def jsonNumber (s : List Char) : Option (JsonVal × List Char) :=
  let (neg, s1) :=
    match s with
    | '-' :: rest => (true, rest)
    | _ => (false, s)
  match s1 with
  | [] => none
  | c :: _ =>
      if ¬c.isDigit then none
      else
        let intDigits := if c = '0' then ['0'] else s1.takeWhile Char.isDigit
        let afterInt := s1.drop intDigits.length
        let (fracPart, afterFrac) :=
          match afterInt with
          | '.' :: r =>
              let ds := r.takeWhile Char.isDigit
              if ds.isEmpty then (([] : List Char), afterInt)
              else ('.' :: ds, r.drop ds.length)
          | _ => ([], afterInt)
        let (expPart, afterExp) :=
          match afterFrac with
          | e :: r =>
              if e = 'e' ∨ e = 'E' then
                match r with
                | sign :: r2 =>
                    if sign = '+' ∨ sign = '-' then
                      let ds := r2.takeWhile Char.isDigit
                      if ds.isEmpty then (([] : List Char), afterFrac)
                      else (e :: sign :: ds, r2.drop ds.length)
                    else
                      let ds := r.takeWhile Char.isDigit
                      if ds.isEmpty then (([] : List Char), afterFrac)
                      else (e :: ds, r.drop ds.length)
                | [] => ([], afterFrac)
              else ([], afterFrac)
          | [] => ([], afterFrac)
        if fracPart.isEmpty && expPart.isEmpty then
          some (.num (if neg then -(digitsToNat intDigits : Int)
                      else (digitsToNat intDigits : Int)), afterInt)
        else
          some (.fnum (String.mk
            ((if neg then ['-'] else []) ++ intDigits ++ fracPart ++ expPart)),
            afterExp)

mutual

/-- One JSON value at the start of the input (no leading whitespace),
as `raw_decode` scans it.  The fuel exceeds the input length, and every
recursion first consumes at least one character. -/
def jsonVal : Nat → List Char → Option (JsonVal × List Char)
  | 0, _ => none
  | fuel + 1, s =>
      match s with
      | [] => none
      | c :: rest =>
          if c = '{' then
            match skipJsonWs rest with
            | '}' :: r2 => some (.obj [], r2)
            | r => jsonMembers fuel r []
          else if c = '[' then
            match skipJsonWs rest with
            | ']' :: r2 => some (.arr [], r2)
            | r => jsonItems fuel r []
          else if c = '\"' then
            match jsonStringChars rest with
            | some (cs, r) => some (.str (String.mk cs), r)
            | none => none
          else if c = 't' then
            match rest with
            | 'r' :: 'u' :: 'e' :: r => some (.bool true, r)
            | _ => none
          else if c = 'f' then
            match rest with
            | 'a' :: 'l' :: 's' :: 'e' :: r => some (.bool false, r)
            | _ => none
          else if c = 'n' then
            match rest with
            | 'u' :: 'l' :: 'l' :: r => some (.null, r)
            | _ => none
          else if c = 'N' then
            match rest with
            | 'a' :: 'N' :: r => some (.fnum "NaN", r)
            | _ => none
          else if c = 'I' then
            match rest with
            | 'n' :: 'f' :: 'i' :: 'n' :: 'i' :: 't' :: 'y' :: r =>
                some (.fnum "Infinity", r)
            | _ => none
          else if c = '-' || c.isDigit then
            match jsonNumber s with
            | some r => some r
            | none =>
                match s with
                | '-' :: 'I' :: 'n' :: 'f' :: 'i' :: 'n' :: 'i' :: 't' :: 'y' :: r =>
                    some (.fnum "-Infinity", r)
                | _ => none
          else none

/-- The members of a JSON object, positioned at a key. -/
def jsonMembers (fuel : Nat) (s : List Char)
    (acc : List (String × JsonVal)) : Option (JsonVal × List Char) :=
  match fuel with
  | 0 => none
  | fuel + 1 =>
      match s with
      | '\"' :: rest =>
          match jsonStringChars rest with
          | none => none
          | some (key, r1) =>
              match skipJsonWs r1 with
              | ':' :: r3 =>
                  match jsonVal fuel (skipJsonWs r3) with
                  | none => none
                  | some (v, r4) =>
                      match skipJsonWs r4 with
                      | ',' :: r6 =>
                          jsonMembers fuel (skipJsonWs r6)
                            (acc ++ [(String.mk key, v)])
                      | '}' :: r6 => some (.obj (acc ++ [(String.mk key, v)]), r6)
                      | _ => none
              | _ => none
      | _ => none

/-- The items of a JSON array, positioned at a value. -/
def jsonItems (fuel : Nat) (s : List Char)
    (acc : List JsonVal) : Option (JsonVal × List Char) :=
  match fuel with
  | 0 => none
  | fuel + 1 =>
      match jsonVal fuel s with
      | none => none
      | some (v, r1) =>
          match skipJsonWs r1 with
          | ',' :: r2 => jsonItems fuel (skipJsonWs r2) (acc ++ [v])
          | ']' :: r2 => some (.arr (acc ++ [v]), r2)
          | _ => none

end

/-- `json.JSONDecoder().raw_decode` on a character list: the decoded
value and the remaining characters (the consumed count is the length
difference). -/
def rawDecode (s : List Char) : Option (JsonVal × List Char) :=
  jsonVal (s.length + 1) s

/-- The literal `[tool_call]` token. -/
def TOOL_CALL_TOKEN : List Char :=
  ['[', 't', 'o', 'o', 'l', '_', 'c', 'a', 'l', 'l', ']']

/-- Position of the first occurrence of `tok` in a suffix. -/
def findSubFrom (tok : List Char) : List Char → Option Nat
  | [] => none
  | c :: rest =>
      if tok.isPrefixOf (c :: rest) then some 0
      else (findSubFrom tok rest).map (fun i => i + 1)

/-- `content.find(token, pos)` for a non-empty `token`: the first
occurrence at or after `pos`. -/
def findSub (s tok : List Char) (pos : Nat) : Option Nat :=
  (findSubFrom tok (s.drop pos)).map (fun i => pos + i)

/-- Python's `\w` restricted to the ASCII range: on every ASCII
character the engine's word class is exactly the alphanumerics plus
underscore, so this instantiates `wordCont` for ASCII inputs. -/
def asciiWordChar (c : Char) : Bool :=
  c.isAlphanum || c = '_'

/-- `re.match(r"\s*([A-Za-z_]\w*)\s*\(", s)`: the captured name and the
count of consumed characters.  The first character's class `[A-Za-z_]`
is literal ASCII; `wordCont` is the engine's Unicode `\w` test for the
continuation characters, kept as a parameter of the model (it agrees
with `asciiWordChar` on ASCII characters). -/
def parseCallHeader (wordCont : Char → Bool) (s : List Char) :
    Option (String × Nat) :=
  let s1 := s.dropWhile isPySpace
  match s1 with
  | c :: s1rest =>
      if c.isAlpha || c = '_' then
        let identTail := s1rest.takeWhile wordCont
        let s2 := (s1rest.drop identTail.length).dropWhile isPySpace
        match s2 with
        | '(' :: _ =>
            some (String.mk (c :: identTail), s.length - s2.length + 1)
        | _ => none
      else none
  | [] => none

/-- One attempt to parse a `<name>({...})` form right after the token
occurrence at `start`: returns the end of the span (one past `)`), the
name and the decoded arguments value. -/
def attemptToolCallAt (wordCont : Char → Bool) (s : List Char) (start : Nat) :
    Option (Nat × String × JsonVal) :=
  let idx0 := start + TOOL_CALL_TOKEN.length
  match parseCallHeader wordCont (s.drop idx0) with
  | none => none
  | some (name, hconsumed) =>
      let idx1 := idx0 + hconsumed
      let tail := (s.drop idx1).dropWhile isPySpace
      let idx2 := idx1 + ((s.drop idx1).length - tail.length)
      match tail with
      | '{' :: _ =>
          match rawDecode tail with
          | none => none
          | some (v, remaining) =>
              let idx3 := idx2 + (tail.length - remaining.length)
              let trailing := (s.drop idx3).dropWhile isPySpace
              let idx4 := idx3 + ((s.drop idx3).length - trailing.length)
              match trailing with
              | ')' :: _ => some (idx4 + 1, name, v)
              | _ => none
      | _ => none

/-- The scan loop of `_coerce_stream_text_tool_calls`: `pos` strictly
increases every iteration, so the input length bounds the iteration
count (the fuel). -/
def scanToolCalls (wordCont : Char → Bool) (s : List Char) :
    Nat → Nat → List (Nat × Nat) × List (String × JsonVal)
  | 0, _ => ([], [])
  | fuel + 1, pos =>
      match findSub s TOOL_CALL_TOKEN pos with
      | none => ([], [])
      | some start =>
          match attemptToolCallAt wordCont s start with
          | none => scanToolCalls wordCont s fuel (start + TOOL_CALL_TOKEN.length)
          | some (e, name, v) =>
              let (spans, calls) := scanToolCalls wordCont s fuel e
              ((start, e) :: spans, (name, v) :: calls)

/-- Excise the collected spans (`parts` / `cursor` walk of the
source). -/
def removeSpans (s : List Char) : Nat → List (Nat × Nat) → List Char
  | cursor, [] => s.drop cursor
  | cursor, (start, e) :: rest => ((s.take start).drop cursor) ++ removeSpans s e rest

/-- `arguments=args_obj if isinstance(args_obj, dict) else
\x7b"raw": args_obj\x7d`. -/
def wrapArguments (v : JsonVal) : JsonVal :=
  match v with
  | .obj _ => v
  | _ => .obj [("raw", v)]

/-- `LiteLLMProvider._coerce_stream_text_tool_calls`.  `freshIds k` is
the hex tail of the `uuid4` drawn for the k-th synthesized call, and
`wordCont` is the regex engine's `\w` class. -/
def coerceStreamTextToolCalls (wordCont : Char → Bool) (freshIds : Nat → String) :
    Option String → Option String × List ToolCallRequest
  | none => (none, [])
  | some c =>
      if c = "" ∨ findSub c.data TOOL_CALL_TOKEN 0 = none then (some c, [])
      else
        let (spans, rawCalls) := scanToolCalls wordCont c.data (c.data.length + 1) 0
        if rawCalls.isEmpty then (some c, [])
        else
          let calls := rawCalls.enum.map (fun p =>
            ({ id := "text_toolcall_" ++ freshIds p.1
               name := p.2.1
               arguments := wrapArguments p.2.2 } : ToolCallRequest))
          let cleaned := pyStripChars (collapseNewlines (removeSpans c.data 0 spans))
          ((if cleaned.isEmpty then none else some (String.mk cleaned)), calls)

/-! ### Specification side for the scan -/

/-- A `[tool_call]` token occurrence at position `p`. -/
def tokenAt (s : List Char) (p : Nat) : Prop :=
  TOOL_CALL_TOKEN.isPrefixOf (s.drop p) = true

instance (s : List Char) (p : Nat) : Decidable (tokenAt s p) := by
  unfold tokenAt
  infer_instance

/-- The collected spans are chained left to right: each starts at or
after the lower bound and properly contains its token. -/
def spanChain (lo : Nat) : List (Nat × Nat) → Prop
  | [] => True
  | sp :: rest =>
      lo ≤ sp.1 ∧ sp.1 + TOOL_CALL_TOKEN.length < sp.2 ∧ spanChain sp.2 rest

/-- Is position `i` inside one of the spans? -/
def coveredBySpans (spans : List (Nat × Nat)) (i : Nat) : Bool :=
  spans.any (fun sp => decide (sp.1 ≤ i) && decide (i < sp.2))

/-- The characters of `s` at positions outside every span, in order:
the declarative form of the cursor-walk excision. -/
def keepOutside (s : List Char) (spans : List (Nat × Nat)) : List Char :=
  (s.enum.filter (fun p => !coveredBySpans spans p.1)).map Prod.snd

theorem findSubFrom_none (tok : List Char) (htok : tok ≠ []) (u : List Char)
    (h : findSubFrom tok u = none) :
    ∀ i, tok.isPrefixOf (u.drop i) = false := by
  induction u with
  | nil =>
      intro i
      cases tok with
      | nil => exact absurd rfl htok
      | cons t ts => simp [List.isPrefixOf]
  | cons c rest ih =>
      intro i
      unfold findSubFrom at h
      by_cases hp : tok.isPrefixOf (c :: rest) = true
      · rw [if_pos hp] at h
        exact absurd h (by simp)
      · rw [if_neg hp] at h
        have hrest : findSubFrom tok rest = none := by
          cases hr : findSubFrom tok rest with
          | none => rfl
          | some j => rw [hr] at h; exact absurd h (by simp)
        cases i with
        | zero => rw [List.drop_zero]; exact Bool.eq_false_iff.mpr hp
        | succ j => exact ih hrest j

theorem findSubFrom_some (tok : List Char) (u : List Char) (i : Nat)
    (h : findSubFrom tok u = some i) :
    tok.isPrefixOf (u.drop i) = true ∧
      ∀ j, j < i → tok.isPrefixOf (u.drop j) = false := by
  induction u generalizing i with
  | nil => simp [findSubFrom] at h
  | cons c rest ih =>
      unfold findSubFrom at h
      by_cases hp : tok.isPrefixOf (c :: rest) = true
      · rw [if_pos hp] at h
        cases h
        exact ⟨hp, fun j hj => absurd hj (by omega)⟩
      · rw [if_neg hp] at h
        cases hr : findSubFrom tok rest with
        | none => rw [hr] at h; exact absurd h (by simp)
        | some j =>
            rw [hr] at h
            simp only [Option.map_some', Option.some.injEq] at h
            subst h
            obtain ⟨h1, h2⟩ := ih j hr
            refine ⟨h1, ?_⟩
            intro k hk
            cases k with
            | zero => rw [List.drop_zero]; exact Bool.eq_false_iff.mpr hp
            | succ k' => exact h2 k' (by omega)

theorem findSub_none (s tok : List Char) (pos : Nat) (htok : tok ≠ [])
    (h : findSub s tok pos = none) :
    ∀ p, pos ≤ p → tok.isPrefixOf (s.drop p) = false := by
  intro p hp
  unfold findSub at h
  cases hf : findSubFrom tok (s.drop pos) with
  | some i => rw [hf] at h; exact absurd h (by simp)
  | none =>
      have := findSubFrom_none tok htok (s.drop pos) hf (p - pos)
      rwa [List.drop_drop, show pos + (p - pos) = p by omega] at this

theorem findSub_some (s tok : List Char) (pos start : Nat)
    (h : findSub s tok pos = some start) :
    pos ≤ start ∧ tok.isPrefixOf (s.drop start) = true ∧
      ∀ p, pos ≤ p → p < start → tok.isPrefixOf (s.drop p) = false := by
  unfold findSub at h
  cases hf : findSubFrom tok (s.drop pos) with
  | none => rw [hf] at h; exact absurd h (by simp)
  | some i =>
      rw [hf] at h
      simp only [Option.map_some', Option.some.injEq] at h
      subst h
      obtain ⟨h1, h2⟩ := findSubFrom_some tok (s.drop pos) i hf
      refine ⟨by omega, ?_, ?_⟩
      · rwa [List.drop_drop] at h1
      · intro p hp1 hp2
        have := h2 (p - pos) (by omega)
        rwa [List.drop_drop, show pos + (p - pos) = p by omega] at this

/-- The token cannot overlap itself: only its first character is
`[`. -/
theorem token_no_overlap (s : List Char) (start j : Nat)
    (h : tokenAt s start) (hj1 : 1 ≤ j) (hj2 : j < TOOL_CALL_TOKEN.length) :
    ¬tokenAt s (start + j) := by
  have hlen : TOOL_CALL_TOKEN.length = 11 := rfl
  unfold tokenAt at h ⊢
  rw [List.isPrefixOf_iff_prefix] at h
  obtain ⟨w, hw⟩ := h
  intro hcon
  rw [show s.drop (start + j) = (s.drop start).drop j from by
      rw [List.drop_drop]] at hcon
  rw [← hw, List.drop_append_of_le_length (Nat.le_of_lt hj2)] at hcon
  rw [hlen] at hj2
  interval_cases j <;>
    simp [TOOL_CALL_TOKEN, List.isPrefixOf] at hcon

theorem parseCallHeader_consumed (wordCont : Char → Bool) (u : List Char)
    (name : String) (hc : Nat)
    (h : parseCallHeader wordCont u = some (name, hc)) : 1 ≤ hc := by
  unfold parseCallHeader at h
  cases h1 : List.dropWhile isPySpace u with
  | nil => simp only [h1] at h; exact absurd h (by simp)
  | cons c s1rest =>
      simp only [h1] at h
      split at h
      · cases h2 : List.dropWhile isPySpace
            (List.drop (List.takeWhile wordCont s1rest).length s1rest) with
        | nil => simp only [h2] at h; exact absurd h (by simp)
        | cons d s2rest =>
            simp only [h2] at h
            split at h
            · simp only [Option.some.injEq, Prod.mk.injEq] at h
              omega
            · exact absurd h (by simp)
      · exact absurd h (by simp)

/-- A list's `dropWhile` result is its suffix at the dropped count. -/
theorem dropWhile_eq_drop_sub (p : Char → Bool) (l : List Char) :
    l.dropWhile p = l.drop (l.length - (l.dropWhile p).length) := by
  induction l with
  | nil => rfl
  | cons c rest ih =>
      by_cases hp : p c = true
      · have hlen : (rest.dropWhile p).length ≤ rest.length :=
          (List.dropWhile_sublist p).length_le
        rw [List.dropWhile_cons, if_pos hp]
        rw [show (c :: rest).length - (rest.dropWhile p).length
            = (rest.length - (rest.dropWhile p).length) + 1 from by
          simp only [List.length_cons]; omega]
        rw [List.drop_succ_cons]
        exact ih
      · rw [List.dropWhile_cons, if_neg hp]
        simp

/-- A `dropWhile` applied to a suffix of `s` is a later suffix of `s`. -/
theorem dropWhile_drop_eq (s : List Char) (i : Nat) (p : Char → Bool) :
    (s.drop i).dropWhile p
      = s.drop (i + ((s.drop i).length - ((s.drop i).dropWhile p).length)) := by
  rw [← List.drop_drop]
  exact dropWhile_eq_drop_sub p (s.drop i)

theorem drop_cons_lt (s : List Char) (i : Nat) (c : Char) (l : List Char)
    (h : s.drop i = c :: l) : i < s.length := by
  by_contra hle
  have hnil : s.drop i = [] := List.drop_eq_nil_iff.mpr (by omega)
  rw [hnil] at h
  exact absurd h (by simp)

theorem tokenAt_le (s : List Char) (p : Nat) (h : tokenAt s p) :
    p + TOOL_CALL_TOKEN.length ≤ s.length := by
  unfold tokenAt at h
  have := List.IsPrefix.length_le (List.isPrefixOf_iff_prefix.mp h)
  rw [List.length_drop] at this
  have hlen : TOOL_CALL_TOKEN.length = 11 := rfl
  omega

theorem spanChain_mono (lo lo' : Nat) (spans : List (Nat × Nat))
    (hle : lo' ≤ lo) (h : spanChain lo spans) : spanChain lo' spans := by
  cases spans with
  | nil => trivial
  | cons sp rest =>
      obtain ⟨h1, h2, h3⟩ := h
      exact ⟨by omega, h2, h3⟩

theorem covLow (spans : List (Nat × Nat)) (lo i : Nat)
    (h : spanChain lo spans) (hi : i < lo) : coveredBySpans spans i = false := by
  induction spans generalizing lo with
  | nil => rfl
  | cons sp rest ih =>
      obtain ⟨h1, h2, h3⟩ := h
      unfold coveredBySpans
      rw [List.any_cons]
      have hsp : (decide (sp.1 ≤ i) && decide (i < sp.2)) = false := by
        have : ¬sp.1 ≤ i := by omega
        simp [this]
      rw [hsp]
      have := ih sp.2 h3 (by omega)
      unfold coveredBySpans at this
      rw [this]
      rfl

/-- A successful call attempt ends strictly past the token and inside
the text. -/
theorem attempt_bounds (wordCont : Char → Bool) (s : List Char) (start e : Nat)
    (name : String) (v : JsonVal)
    (h : attemptToolCallAt wordCont s start = some (e, name, v)) :
    start + TOOL_CALL_TOKEN.length < e ∧ e ≤ s.length := by
  unfold attemptToolCallAt at h
  cases hph : parseCallHeader wordCont (s.drop (start + TOOL_CALL_TOKEN.length)) with
  | none => simp only [hph] at h; exact absurd h (by simp)
  | some p =>
      obtain ⟨nm, hcons⟩ := p
      simp only [hph] at h
      cases ht : (s.drop (start + TOOL_CALL_TOKEN.length + hcons)).dropWhile isPySpace with
      | nil => simp only [ht] at h; exact absurd h (by simp)
      | cons t trest =>
          simp only [ht] at h
          split at h
          · rename_i heq1
            cases hrd : rawDecode (t :: trest) with
            | none => simp only [hrd] at h; exact absurd h (by simp)
            | some q =>
                obtain ⟨v0, remaining⟩ := q
                simp only [hrd] at h
                cases htr : (s.drop (start + TOOL_CALL_TOKEN.length + hcons +
                    ((s.drop (start + TOOL_CALL_TOKEN.length + hcons)).length -
                      (t :: trest).length) +
                    ((t :: trest).length - remaining.length))).dropWhile isPySpace with
                | nil => simp only [htr] at h; exact absurd h (by simp)
                | cons r rrest =>
                    simp only [htr] at h
                    split at h
                    · rename_i heq2
                      simp only [Option.some.injEq, Prod.mk.injEq] at h
                      obtain ⟨he, _, _⟩ := h
                      have hd4 : s.drop (start + TOOL_CALL_TOKEN.length + hcons +
                          ((s.drop (start + TOOL_CALL_TOKEN.length + hcons)).length -
                            (t :: trest).length) +
                          ((t :: trest).length - remaining.length) +
                          ((s.drop (start + TOOL_CALL_TOKEN.length + hcons +
                              ((s.drop (start + TOOL_CALL_TOKEN.length + hcons)).length -
                                (t :: trest).length) +
                              ((t :: trest).length - remaining.length))).length -
                            (r :: rrest).length)) = r :: rrest := by
                        rw [← htr]
                        exact (dropWhile_drop_eq s _ isPySpace).symm
                      have hlt := drop_cons_lt s _ r rrest hd4
                      omega
                    · exact absurd h (by simp)
          · exact absurd h (by simp)

/-- The scan loop, characterized: the collected spans are chained and
in-bounds, each span carries a token occurrence whose attempt parsed to
the paired call, and every token occurrence outside the spans fails to
parse (is left in the text). -/
theorem scan_spec (wordCont : Char → Bool) (s : List Char) :
    ∀ fuel pos, s.length + 1 ≤ fuel + pos →
      spanChain pos (scanToolCalls wordCont s fuel pos).1 ∧
      (∀ sp ∈ (scanToolCalls wordCont s fuel pos).1, sp.2 ≤ s.length) ∧
      List.Forall₂ (fun sp nv => tokenAt s sp.1 ∧
          attemptToolCallAt wordCont s sp.1 = some (sp.2, nv.1, nv.2))
        (scanToolCalls wordCont s fuel pos).1
        (scanToolCalls wordCont s fuel pos).2 ∧
      ∀ p, pos ≤ p → tokenAt s p →
          coveredBySpans (scanToolCalls wordCont s fuel pos).1 p = false →
          attemptToolCallAt wordCont s p = none := by
  have hlen : TOOL_CALL_TOKEN.length = 11 := rfl
  intro fuel
  induction fuel with
  | zero =>
      intro pos hf
      refine ⟨trivial, by simp [scanToolCalls], ?_, ?_⟩
      · exact List.Forall₂.nil
      · intro p hp htok _
        have := tokenAt_le s p htok
        omega
  | succ fuel ih =>
      intro pos hf
      cases hfind : findSub s TOOL_CALL_TOKEN pos with
      | none =>
          refine ⟨?_, ?_, ?_, ?_⟩ <;> simp only [scanToolCalls, hfind]
          · trivial
          · simp
          · exact List.Forall₂.nil
          · intro p hp htok _
            have hfalse := findSub_none s TOOL_CALL_TOKEN pos (by decide) hfind p hp
            unfold tokenAt at htok
            rw [hfalse] at htok
            exact absurd htok (by simp)
      | some start =>
          obtain ⟨hps, htoks, hnotok⟩ := findSub_some s TOOL_CALL_TOKEN pos start hfind
          cases hatt : attemptToolCallAt wordCont s start with
          | none =>
              have hsl := tokenAt_le s start htoks
              have hfuel' : s.length + 1 ≤ fuel + (start + TOOL_CALL_TOKEN.length) := by
                omega
              obtain ⟨ih1, ih2, ih3, ih4⟩ := ih (start + TOOL_CALL_TOKEN.length) hfuel'
              have hred : scanToolCalls wordCont s (fuel + 1) pos
                  = scanToolCalls wordCont s fuel (start + TOOL_CALL_TOKEN.length) := by
                simp only [scanToolCalls, hfind, hatt]
              rw [hred]
              refine ⟨spanChain_mono _ pos _ (by omega) ih1, ih2, ih3, ?_⟩
              intro p hp htok hcov
              rcases Nat.lt_or_ge p start with hlt | hge
              · have hfalse := hnotok p hp hlt
                unfold tokenAt at htok
                rw [hfalse] at htok
                exact absurd htok (by simp)
              · rcases Nat.eq_or_lt_of_le hge with heq | hgt
                · rw [← heq]; exact hatt
                · rcases Nat.lt_or_ge p (start + TOOL_CALL_TOKEN.length) with hlt2 | hge2
                  · have hno := token_no_overlap s start (p - start) htoks
                      (by omega) (by omega)
                    rw [show start + (p - start) = p from by omega] at hno
                    exact absurd htok hno
                  · exact ih4 p hge2 htok hcov
          | some r =>
              obtain ⟨e, nm, v⟩ := r
              obtain ⟨hb1, hb2⟩ := attempt_bounds wordCont s start e nm v hatt
              have hfuel' : s.length + 1 ≤ fuel + e := by omega
              obtain ⟨ih1, ih2, ih3, ih4⟩ := ih e hfuel'
              have hred : scanToolCalls wordCont s (fuel + 1) pos
                  = ((start, e) :: (scanToolCalls wordCont s fuel e).1,
                     (nm, v) :: (scanToolCalls wordCont s fuel e).2) := by
                simp only [scanToolCalls, hfind, hatt]
              rw [hred]
              refine ⟨⟨hps, hb1, ih1⟩, ?_, ?_, ?_⟩
              · intro sp hsp
                rcases List.mem_cons.mp hsp with heq | hmem
                · rw [heq]; exact hb2
                · exact ih2 sp hmem
              · exact List.Forall₂.cons ⟨htoks, hatt⟩ ih3
              · intro p hp htok hcov
                simp only [coveredBySpans, List.any_cons, Bool.or_eq_false_iff,
                  Bool.and_eq_false_iff, decide_eq_false_iff_not] at hcov
                rcases Nat.lt_or_ge p start with hlt | hge
                · have hfalse := hnotok p hp hlt
                  unfold tokenAt at htok
                  rw [hfalse] at htok
                  exact absurd htok (by simp)
                · have hpe : e ≤ p := by
                    rcases hcov.1 with hc | hc
                    · omega
                    · omega
                  refine ih4 p hpe htok ?_
                  unfold coveredBySpans
                  exact hcov.2

theorem enumFrom_filter_ge (l : List Char) :
    ∀ k c, ((l.enumFrom k).filter (fun p => decide (c ≤ p.1))).map Prod.snd
      = l.drop (c - k) := by
  induction l with
  | nil => intro k c; simp
  | cons a l ih =>
      intro k c
      rw [List.enumFrom_cons, List.filter_cons]
      by_cases hc : c ≤ k
      · rw [if_pos (by simpa using hc)]
        rw [List.map_cons, ih (k + 1) c]
        rw [show c - (k + 1) = 0 from by omega, show c - k = 0 from by omega]
        simp
      · rw [if_neg (by simpa using hc)]
        rw [ih (k + 1) c]
        rw [show c - k = (c - (k + 1)) + 1 from by omega]
        rfl

theorem enumFrom_filter_slice (l : List Char) :
    ∀ k c st, ((l.enumFrom k).filter
        (fun p => decide (c ≤ p.1) && decide (p.1 < st))).map Prod.snd
      = (l.take (st - k)).drop (c - k) := by
  induction l with
  | nil => intro k c st; simp
  | cons a l ih =>
      intro k c st
      rw [List.enumFrom_cons, List.filter_cons]
      by_cases hst : k < st
      · by_cases hc : c ≤ k
        · rw [if_pos (by simp [hc, hst])]
          rw [List.map_cons, ih (k + 1) c st]
          rw [show c - (k + 1) = 0 from by omega, show c - k = 0 from by omega]
          rw [show st - k = (st - (k + 1)) + 1 from by omega]
          simp
        · rw [if_neg (by simp [hc])]
          rw [ih (k + 1) c st]
          rw [show st - k = (st - (k + 1)) + 1 from by omega,
              show c - k = (c - (k + 1)) + 1 from by omega]
          rfl
      · rw [if_neg (by simp [hst])]
        rw [ih (k + 1) c st]
        rw [show st - (k + 1) = 0 from by omega, show st - k = 0 from by omega]
        simp

/-- The cursor walk over the spans equals the declarative filter that
keeps exactly the positions at or past the cursor and outside every
span. -/
theorem removeSpans_eq_keep (s : List Char) :
    ∀ spans cursor, spanChain cursor spans →
      (∀ sp ∈ spans, sp.2 ≤ s.length) →
      removeSpans s cursor spans
        = ((s.enum.filter (fun p =>
            decide (cursor ≤ p.1) && !coveredBySpans spans p.1)).map Prod.snd) := by
  intro spans
  induction spans with
  | nil =>
      intro cursor _ _
      unfold removeSpans
      rw [List.filter_congr (fun p _ => by
        show (decide (cursor ≤ p.1) && !coveredBySpans [] p.1)
          = decide (cursor ≤ p.1)
        simp [coveredBySpans])]
      rw [show s.enum = s.enumFrom 0 from rfl]
      rw [enumFrom_filter_ge s 0 cursor, Nat.sub_zero]
  | cons sp rest ih =>
      intro cursor hchain hbound
      obtain ⟨st, e⟩ := sp
      obtain ⟨h1, h2, h3⟩ := hchain
      have he : e ≤ s.length := hbound (st, e) (List.mem_cons_self _ _)
      unfold removeSpans
      rw [ih e h3 (fun q hq => hbound q (List.mem_cons_of_mem _ hq))]
      have hsplit : s.enum = (s.take e).enumFrom 0 ++ (s.drop e).enumFrom e := by
        conv_lhs => rw [show s.enum = s.enumFrom 0 from rfl,
          ← List.take_append_drop e s]
        rw [List.enumFrom_append]
        rw [List.length_take, Nat.zero_add, Nat.min_eq_left he]
      rw [hsplit, List.filter_append, List.filter_append, List.map_append,
        List.map_append]
      have hmemA : ∀ p ∈ (s.take e).enumFrom 0, p.1 < e := by
        intro p hp
        obtain ⟨a, b⟩ := p
        have := (List.mem_enumFrom hp).2.1
        have hle : (s.take e).length ≤ e := by
          rw [List.length_take]; omega
        simpa using by omega
      have hmemB : ∀ p ∈ (s.drop e).enumFrom e, e ≤ p.1 := by
        intro p hp
        obtain ⟨a, b⟩ := p
        exact (List.mem_enumFrom hp).1
      have hA2 : (((s.take e).enumFrom 0).filter (fun p =>
          decide (e ≤ p.1) && !coveredBySpans rest p.1)) = [] := by
        apply List.filter_eq_nil_iff.mpr
        intro p hp
        have := hmemA p hp
        simp [show ¬e ≤ p.1 from by omega]
      have hA1 : (((s.take e).enumFrom 0).filter (fun p =>
            decide (cursor ≤ p.1) && !coveredBySpans ((st, e) :: rest) p.1)).map
            Prod.snd
          = (s.take st).drop cursor := by
        rw [List.filter_congr (fun p hp => by
          show (decide (cursor ≤ p.1) && !coveredBySpans ((st, e) :: rest) p.1)
            = (decide (cursor ≤ p.1) && decide (p.1 < st))
          have hpe := hmemA p hp
          have hrest := covLow rest e p.1 h3 hpe
          simp only [coveredBySpans, List.any_cons]
          unfold coveredBySpans at hrest
          rw [hrest]
          rcases Nat.lt_or_ge p.1 st with hlt | hge
          · simp [show ¬st ≤ p.1 from by omega, hlt]
          · simp [show st ≤ p.1 from hge, show p.1 < e from hpe,
              show ¬p.1 < st from by omega])]
        rw [enumFrom_filter_slice (s.take e) 0 cursor st]
        rw [Nat.sub_zero, Nat.sub_zero, List.take_take,
          Nat.min_eq_left (by omega : st ≤ e)]
      have hB : (((s.drop e).enumFrom e).filter (fun p =>
            decide (cursor ≤ p.1) && !coveredBySpans ((st, e) :: rest) p.1))
          = (((s.drop e).enumFrom e).filter (fun p =>
            decide (e ≤ p.1) && !coveredBySpans rest p.1)) := by
        apply List.filter_congr
        intro p hp
        have hpe := hmemB p hp
        show (decide (cursor ≤ p.1) && !coveredBySpans ((st, e) :: rest) p.1)
          = (decide (e ≤ p.1) && !coveredBySpans rest p.1)
        simp only [coveredBySpans, List.any_cons]
        simp [show cursor ≤ p.1 from by omega, show e ≤ p.1 from hpe,
          show ¬p.1 < e from by omega]
      rw [hA1, hA2, hB]
      simp

/-- At cursor zero the walk keeps exactly the positions outside every
span. -/
theorem removeSpans_zero_keep (s : List Char) (spans : List (Nat × Nat))
    (hchain : spanChain 0 spans) (hb : ∀ sp ∈ spans, sp.2 ≤ s.length) :
    removeSpans s 0 spans = keepOutside s spans := by
  rw [removeSpans_eq_keep s spans 0 hchain hb]
  unfold keepOutside
  congr 1
  apply List.filter_congr
  intro p _
  simp

/-- Modelled from the spec's words, for comparison with the scanner
translated from the code: every maximal run of newlines in the text is
capped at two characters, everything else is kept. -/
def nlRunCap : List Char → List Char
  | [] => []
  | c :: rest =>
      if c = '\n' then
        List.replicate (min (1 + (rest.takeWhile (fun d => decide (d = '\n'))).length) 2)
            '\n'
          ++ nlRunCap (rest.dropWhile (fun d => decide (d = '\n')))
      else c :: nlRunCap rest
termination_by l => l.length
decreasing_by
  · simp only [List.length_cons]
    have hsub : (rest.dropWhile (fun d => decide (d = '\n'))).length ≤ rest.length :=
      (List.dropWhile_sublist _).length_le
    omega
  · simp

theorem nlRunCap_nil : nlRunCap [] = [] := by
  rw [nlRunCap]

theorem nlRunCap_cons (c : Char) (rest : List Char) :
    nlRunCap (c :: rest)
      = if c = '\n' then
          List.replicate (min (1 + (rest.takeWhile (fun d => decide (d = '\n'))).length) 2)
              '\n'
            ++ nlRunCap (rest.dropWhile (fun d => decide (d = '\n')))
        else c :: nlRunCap rest := by
  rw [nlRunCap]

theorem emitRun_min_two (m : Nat) :
    emitRun m = List.replicate (min m 2) '\n' := by
  unfold emitRun
  by_cases h3 : 3 ≤ m
  · rw [if_pos h3, show min m 2 = 2 from by omega]
    rfl
  · rw [if_neg h3, show min m 2 = m from by omega]

theorem dropWhile_head_false (p : Char → Bool) (l : List Char) (d : Char)
    (rest' : List Char) (h : l.dropWhile p = d :: rest') : p d = false := by
  induction l with
  | nil => simp at h
  | cons a l ih =>
      rw [List.dropWhile_cons] at h
      by_cases ha : p a = true
      · rw [if_pos ha] at h
        exact ih h
      · rw [if_neg ha] at h
        cases h
        exact Bool.eq_false_iff.mpr ha

theorem collapseAux_run (l : List Char) :
    ∀ run, collapseAux l run
      = emitRun (run + (l.takeWhile (fun d => decide (d = '\n'))).length)
        ++ (match l.dropWhile (fun d => decide (d = '\n')) with
            | [] => []
            | c :: rest => c :: collapseAux rest 0) := by
  induction l with
  | nil =>
      intro run
      simp [collapseAux]
  | cons c rest ih =>
      intro run
      by_cases hc : c = '\n'
      · subst hc
        rw [collapseAux_cons, if_pos rfl]
        rw [ih (run + 1)]
        rw [List.takeWhile_cons, List.dropWhile_cons]
        rw [if_pos (by simp), if_pos (by simp)]
        rw [List.length_cons]
        have harith : ∀ n : Nat, run + 1 + n = run + (n + 1) := fun n => by omega
        rw [harith]
      · rw [collapseAux_cons, if_neg hc]
        rw [List.takeWhile_cons, List.dropWhile_cons]
        rw [if_neg (by simp [hc]), if_neg (by simp [hc])]
        simp

theorem collapse_eq_cap_aux :
    ∀ n (l : List Char), l.length ≤ n → collapseNewlines l = nlRunCap l := by
  intro n
  induction n with
  | zero =>
      intro l hl
      have hnil : l = [] := List.eq_nil_of_length_eq_zero (by omega)
      subst hnil
      rw [nlRunCap_nil]
      rfl
  | succ n ih =>
      intro l hl
      cases l with
      | nil => rw [nlRunCap_nil]; rfl
      | cons c rest =>
          by_cases hc : c = '\n'
          · subst hc
            show collapseAux ('\n' :: rest) 0 = nlRunCap ('\n' :: rest)
            rw [collapseAux_run ('\n' :: rest) 0]
            rw [List.takeWhile_cons, List.dropWhile_cons]
            rw [if_pos (by simp), if_pos (by simp)]
            rw [List.length_cons, Nat.zero_add]
            rw [nlRunCap_cons, if_pos rfl]
            rw [emitRun_min_two]
            rw [show (rest.takeWhile (fun d => decide (d = '\n'))).length + 1
              = 1 + (rest.takeWhile (fun d => decide (d = '\n'))).length from by omega]
            congr 1
            cases hd : rest.dropWhile (fun d => decide (d = '\n')) with
            | nil => rw [nlRunCap_nil]
            | cons d rest' =>
                have hdp := dropWhile_head_false _ rest d rest' hd
                have hlen' : rest'.length ≤ n := by
                  have h1 : (rest.dropWhile (fun d => decide (d = '\n'))).length
                      ≤ rest.length := (List.dropWhile_sublist _).length_le
                  rw [hd] at h1
                  simp only [List.length_cons] at h1 hl
                  omega
                rw [nlRunCap_cons, if_neg (by simpa using hdp)]
                rw [← ih rest' hlen']
                rfl
          · show collapseAux (c :: rest) 0 = nlRunCap (c :: rest)
            rw [collapseAux_cons, if_neg hc]
            rw [nlRunCap_cons, if_neg hc]
            rw [← ih rest (by simp only [List.length_cons] at hl; omega)]
            rfl

/-- `re.sub(r"\n\x7b3,\x7d", "\n\n", _)` caps every maximal newline run
at two: the scanner from the code agrees with the run-capping spec on
every input. -/
theorem collapseNewlines_eq_nlRunCap (l : List Char) :
    collapseNewlines l = nlRunCap l :=
  collapse_eq_cap_aux l.length l le_rfl

theorem string_append_left_cancel (p a b : String) (h : p ++ a = p ++ b) :
    a = b := by
  have hd := congrArg String.data h
  rw [String.data_append p a, String.data_append p b] at hd
  have h2 := List.append_cancel_left hd
  cases a with
  | mk da =>
      cases b with
      | mk db => exact congrArg String.mk (by simpa using h2)

theorem coerce_ids_nodup (wordCont : Char → Bool) (freshIds : Nat → String)
    (hinj : Function.Injective freshIds) (o : Option String) :
    (((coerceStreamTextToolCalls wordCont freshIds o).2).map
      (fun t => t.id)).Nodup := by
  cases o with
  | none => simp [coerceStreamTextToolCalls]
  | some c =>
      simp only [coerceStreamTextToolCalls]
      split
      · simp
      · rcases hsc : scanToolCalls wordCont c.data (c.data.length + 1) 0 with ⟨spans, raws⟩
        simp only [hsc]
        split
        · simp
        · show (((raws.enum.map (fun p =>
              ({ id := "text_toolcall_" ++ freshIds p.1
                 name := p.2.1
                 arguments := wrapArguments p.2.2 } : ToolCallRequest))).map
              (fun t => t.id))).Nodup
          rw [List.map_map]
          have hcomp : ((fun t : ToolCallRequest => t.id) ∘
                (fun p : Nat × String × JsonVal =>
                  ({ id := "text_toolcall_" ++ freshIds p.1
                     name := p.2.1
                     arguments := wrapArguments p.2.2 } : ToolCallRequest)))
              = (fun k => "text_toolcall_" ++ freshIds k) ∘ Prod.fst := rfl
          rw [hcomp]
          rw [← List.map_map]
          rw [List.enum_map_fst]
          refine (List.nodup_range raws.length).map ?_
          intro a b hab
          exact hinj (string_append_left_cancel "text_toolcall_" _ _ hab)

/-- Claim C5: for every stream text, the scan of
`_coerce_stream_text_tool_calls` collects left-to-right chained spans,
each carrying a `[tool_call]` occurrence whose `<name>({...json...})`
form parsed to the paired call; every occurrence outside the spans is
malformed (fails to parse) and stays in the text; with at least one
occurrence and at least one parsed call the adapter returns the text
with exactly the spans excised, runs of three or more newlines collapsed
to two (the scanner agrees with the run-capping spec on every input) and
the result stripped, plus one `ToolCallRequest` per parsed call with a
fresh id, parsed name, and the decoded arguments (dicts kept, other
values wrapped as `{"raw": ...}`); fresh ids are pairwise distinct when
the uuid tails are; a text without the marker, a `None` text, and a text
with only malformed occurrences pass through unchanged; in particular
`"Hello [tool_call] message({"content":"hi"}) bye"` yields exactly one
call named `message` with arguments `{"content":"hi"}` and content
`"Hello  bye"`, a newline example collapses `\n\n\n\n` to `\n\n`, and a
float argument decodes to its literal lexeme. -/
theorem stream_text_tool_call_recovery
    (wordCont : Char → Bool) (freshIds : Nat → String) (c : String)
    (spans : List (Nat × Nat)) (raws : List (String × JsonVal))
    (hscan : scanToolCalls wordCont c.data (c.data.length + 1) 0 = (spans, raws)) :
    ((∀ p, ¬tokenAt c.data p) →
      coerceStreamTextToolCalls wordCont freshIds (some c) = (some c, [])) ∧
    spanChain 0 spans ∧
    List.Forall₂ (fun sp nv => tokenAt c.data sp.1 ∧
        attemptToolCallAt wordCont c.data sp.1 = some (sp.2, nv.1, nv.2))
      spans raws ∧
    (∀ p, tokenAt c.data p → coveredBySpans spans p = false →
        attemptToolCallAt wordCont c.data p = none) ∧
    ((∃ p, tokenAt c.data p) → raws ≠ [] →
      coerceStreamTextToolCalls wordCont freshIds (some c)
        = ((if (pyStripChars (nlRunCap (keepOutside c.data spans))).isEmpty
            then none
            else some (String.mk (pyStripChars (nlRunCap (keepOutside c.data spans))))),
           raws.enum.map (fun p =>
             ({ id := "text_toolcall_" ++ freshIds p.1
                name := p.2.1
                arguments := wrapArguments p.2.2 } : ToolCallRequest)))) ∧
    ((∃ p, tokenAt c.data p) → raws = [] →
      coerceStreamTextToolCalls wordCont freshIds (some c) = (some c, [])) ∧
    (Function.Injective freshIds →
      (((coerceStreamTextToolCalls wordCont freshIds (some c)).2).map
        (fun t => t.id)).Nodup) ∧
    coerceStreamTextToolCalls wordCont freshIds none = (none, []) ∧
    (∀ l, collapseNewlines l = nlRunCap l) ∧
    coerceStreamTextToolCalls asciiWordChar freshIds
        (some "Hello [tool_call] message(\x7b\"content\":\"hi\"\x7d) bye")
      = (some "Hello  bye",
          [{ id := "text_toolcall_" ++ freshIds 0
             name := "message"
             arguments := .obj [("content", .str "hi")] }]) ∧
    coerceStreamTextToolCalls asciiWordChar freshIds
        (some "A [tool_call] message(notjson) B")
      = (some "A [tool_call] message(notjson) B", []) ∧
    coerceStreamTextToolCalls asciiWordChar freshIds
        (some "X\n\n[tool_call] message(\x7b\"a\":1\x7d)\n\nY")
      = (some "X\n\nY",
          [{ id := "text_toolcall_" ++ freshIds 0
             name := "message"
             arguments := .obj [("a", .num 1)] }]) ∧
    coerceStreamTextToolCalls asciiWordChar freshIds
        (some "[tool_call] move(\x7b\"speed\": -1.5e2\x7d) ")
      = (none,
          [{ id := "text_toolcall_" ++ freshIds 0
             name := "move"
             arguments := .obj [("speed", .fnum "-1.5e2")] }]) := by
  have hlen11 : TOOL_CALL_TOKEN.length = 11 := rfl
  obtain ⟨hs1, hs2, hs3, hs4⟩ :=
    scan_spec wordCont c.data (c.data.length + 1) 0 (by omega)
  rw [hscan] at hs1 hs2 hs3 hs4
  refine ⟨?_, hs1, hs3, fun p ht hcov => hs4 p (Nat.zero_le p) ht hcov,
    ?_, ?_, ?_, rfl, ?_, rfl, rfl, rfl, rfl⟩
  · intro hno
    have hcond : c = "" ∨ findSub c.data TOOL_CALL_TOKEN 0 = none := by
      cases hf : findSub c.data TOOL_CALL_TOKEN 0 with
      | none => exact Or.inr rfl
      | some st =>
          exact absurd (findSub_some c.data TOOL_CALL_TOKEN 0 st hf).2.1 (hno st)
    simp only [coerceStreamTextToolCalls]
    rw [if_pos hcond]
  · rintro ⟨p0, hp0⟩ hraws
    have hlb := tokenAt_le c.data p0 hp0
    rw [hlen11] at hlb
    have hcne : ¬(c = "" ∨ findSub c.data TOOL_CALL_TOKEN 0 = none) := by
      rintro (hc | hf)
      · subst hc
        have h0 : ("" : String).data.length = 0 := rfl
        omega
      · have hfalse := findSub_none c.data TOOL_CALL_TOKEN 0 (by decide) hf p0
          (Nat.zero_le _)
        unfold tokenAt at hp0
        rw [hfalse] at hp0
        exact absurd hp0 (by simp)
    simp only [coerceStreamTextToolCalls, hscan]
    rw [if_neg hcne]
    rw [if_neg (fun hemp => hraws (List.isEmpty_iff.mp hemp))]
    rw [removeSpans_zero_keep c.data spans hs1 hs2]
    rw [collapseNewlines_eq_nlRunCap]
  · rintro ⟨p0, hp0⟩ hnil
    subst hnil
    have hlb := tokenAt_le c.data p0 hp0
    rw [hlen11] at hlb
    have hcne : ¬(c = "" ∨ findSub c.data TOOL_CALL_TOKEN 0 = none) := by
      rintro (hc | hf)
      · subst hc
        have h0 : ("" : String).data.length = 0 := rfl
        omega
      · have hfalse := findSub_none c.data TOOL_CALL_TOKEN 0 (by decide) hf p0
          (Nat.zero_le _)
        unfold tokenAt at hp0
        rw [hfalse] at hp0
        exact absurd hp0 (by simp)
    simp only [coerceStreamTextToolCalls, hscan]
    rw [if_neg hcne]
    simp
  · intro hinj
    exact coerce_ids_nodup wordCont freshIds hinj (some c)
  · exact fun l => collapseNewlines_eq_nlRunCap l

theorem stream_text_tool_call_recovery_witness :
    coerceStreamTextToolCalls asciiWordChar (fun _ => "abc123")
        (some "Hello [tool_call] message(\x7b\"content\":\"hi\"\x7d) bye")
      = ((if (pyStripChars (nlRunCap (keepOutside
              "Hello [tool_call] message(\x7b\"content\":\"hi\"\x7d) bye".data
              [(6, 43)]))).isEmpty
          then none
          else some (String.mk (pyStripChars (nlRunCap (keepOutside
              "Hello [tool_call] message(\x7b\"content\":\"hi\"\x7d) bye".data
              [(6, 43)]))))),
         ([("message", JsonVal.obj [("content", JsonVal.str "hi")])].enum.map (fun p =>
           ({ id := "text_toolcall_" ++ (fun _ : Nat => "abc123") p.1
              name := p.2.1
              arguments := wrapArguments p.2.2 } : ToolCallRequest)))) := by
  exact (stream_text_tool_call_recovery asciiWordChar (fun _ => "abc123")
      "Hello [tool_call] message(\x7b\"content\":\"hi\"\x7d) bye"
      [(6, 43)] [("message", JsonVal.obj [("content", JsonVal.str "hi")])]
      rfl).2.2.2.2.1 ⟨6, by decide⟩ (by simp)

end Nanobot
